import Mathlib

/-!
# Verification of `fixed_capacity_vec`

A shallow embedding of the Rust crate `fixed_capacity_vec` (src/lib.rs and
benches/decode_rle.rs).  The backing storage of a `Vec<T>` is modelled as a
`List (Option T)` whose length is the allocated capacity; `none` cells are
uninitialized memory.  Machine integers (`usize`) are modelled as `Nat` with
explicit bound checks against `2 ^ 64`; every place where the Rust code would
panic (assert failure, checked_mul expect, debug-mode subtraction underflow,
index out of bounds) or hit undefined behaviour (out-of-bounds raw write,
read of uninitialized memory, overlapping `copy_nonoverlapping`) is an
explicit error of the `Err` type.  Operations that take `&mut self` return
`Except (Err × State) State`: on a panic the carried state is the state at
the moment of the panic, so partial mutation before a failure is observable.
-/

namespace FixedCapVec

/-- `usize::MAX + 1` on a 64-bit platform. -/
def USIZE : Nat := 2 ^ 64

/-- Panic and undefined-behaviour conditions of the embedded code.

* `mulOverflow` — `checked_mul(..).expect("capacity overflow")` (lib.rs:164)
* `subOverflow` — `usize` subtraction underflow (debug-mode panic)
* `assertCap`   — an `assert!` about capacity failed
* `indexPanic`  — safe slice indexing out of bounds
* `divByZero`   — integer division by zero
* `oobWrite`/`oobRead`/`uninitRead`/`overlap` — undefined behaviour of the
  raw-pointer copies (write or read outside the allocation, read of
  uninitialized cells, overlapping `ptr::copy_nonoverlapping`). -/
inductive Err where
  | mulOverflow
  | subOverflow
  | assertCap
  | indexPanic
  | divByZero
  | oobWrite
  | oobRead
  | uninitRead
  | overlap
deriving DecidableEq, Repr

/-- Debug-mode `usize` subtraction: panics on underflow. -/
def checkedSub (a b : Nat) : Except Err Nat :=
  if b ≤ a then .ok (a - b) else .error .subOverflow

/-- Turn a list of cells into its values if every cell is initialized. -/
def seqOpt {T : Type} : List (Option T) → Option (List T)
  | [] => some []
  | (none) :: _ => none
  | (some x) :: rest =>
    match seqOpt rest with
    | some l => some (x :: l)
    | none => none

/-- Write the values `src` into storage `st` starting at index `dst`
(the raw effect of a bulk copy; bounds are checked by the callers). -/
def writeAt {T : Type} (st : List (Option T)) (dst : Nat) (src : List T) :
    List (Option T) :=
  st.take dst ++ src.map some ++ st.drop (dst + src.length)

/-- The `cnt` cells of storage `st` starting at index `src`. -/
def segment {T : Type} (st : List (Option T)) (src cnt : Nat) : List (Option T) :=
  (st.drop src).take cnt

/-- Read `cnt` elements starting at `src`; undefined behaviour (error) if the
range leaves the allocation or touches an uninitialized cell. -/
def readInit {T : Type} (st : List (Option T)) (src cnt : Nat) : Except Err (List T) :=
  if src + cnt ≤ st.length then
    match seqOpt (segment st src cnt) with
    | some vals => .ok vals
    | none => .error .uninitRead
  else .error .oobRead

/-- `ptr::copy_nonoverlapping` inside one allocation: `cnt` cells from index
`src` to index `dst`.  Undefined behaviour (error) unless the destination
range is inside the allocation, the two ranges are disjoint, and the source
range is initialized. -/
def copyNonoverlapping {T : Type} (st : List (Option T)) (src dst cnt : Nat) :
    Except Err (List (Option T)) :=
  if dst + cnt ≤ st.length then
    if src + cnt ≤ dst ∨ dst + cnt ≤ src then
      match readInit st src cnt with
      | .ok vals => .ok (writeAt st dst vals)
      | .error e => .error e
    else .error .overlap
  else .error .oobWrite

/-- `ptr::copy_nonoverlapping` (or `copy_from_slice`) from an external slice
`src` into the storage at index `dst`.  The external slice is initialized by
construction and lives outside this allocation, so only the destination
bounds can fail. -/
def copySliceIn {T : Type} (st : List (Option T)) (dst : Nat) (src : List T) :
    Except Err (List (Option T)) :=
  if dst + src.length ≤ st.length then .ok (writeAt st dst src)
  else .error .oobWrite

/-- The caller-owned growable buffer: `store` is the allocation (length =
capacity), `len` the number of initialized-and-committed elements. -/
structure RustVec (T : Type) where
  store : List (Option T)
  len : Nat
deriving Repr

/-- A well-formed `Vec`: the length fits the allocation and the first `len`
cells are initialized. -/
def RustVec.WF {T : Type} (v : RustVec T) : Prop :=
  v.len ≤ v.store.length ∧ (v.store.take v.len).all Option.isSome

instance {T : Type} (v : RustVec T) : Decidable v.WF := by
  unfold RustVec.WF; infer_instance

/-- `FixedCapacityVec<'a, T>` (lib.rs:75–82): the write cursor, holding the
exclusively borrowed buffer together with `start` and `max_len`. -/
structure FCVec (T : Type) where
  buffer : RustVec T
  start : Nat
  max_len : Nat
deriving Repr

/-- `additional_cap` (lib.rs:219–221): `self.max_len - self.buffer.len()`. -/
def FCVec.additional_cap {T : Type} (v : FCVec T) : Except Err Nat :=
  checkedSub v.max_len v.buffer.len

/-- `len` (lib.rs:254–256): `self.buffer.len() - self.start`. -/
def FCVec.curLen {T : Type} (v : FCVec T) : Except Err Nat :=
  checkedSub v.buffer.len v.start

/-- `with_fixed_capacity` (lib.rs:87–108): reserve `capacity` extra slots,
assert the allocation is non-empty, and split into the initialized read
slice and a write cursor with `start = len`, `max_len = len + capacity`. -/
def RustVec.with_fixed_capacity {T : Type} (v : RustVec T) (capacity : Nat) :
    Except Err (List T × FCVec T) :=
  let len := v.len
  -- `self.reserve(capacity)`: grow the allocation so that it can hold
  -- `len + capacity` elements (modelled as the minimal compliant growth).
  let store1 :=
    if v.store.length < len + capacity then
      v.store ++ List.replicate (len + capacity - v.store.length) none
    else v.store
  -- `debug_assert!(self.capacity() - len >= capacity)`
  match checkedSub store1.length len with
  | .error e => .error e
  | .ok slack =>
    if capacity ≤ slack then
      -- `assert!(self.capacity() > 0)`
      if 0 < store1.length then
        -- `slice::from_raw_parts_mut(raw_ptr, len)`
        match readInit store1 0 len with
        | .ok init_slice =>
          .ok (init_slice, ⟨⟨store1, len⟩, len, len + capacity⟩)
        | .error e => .error e
      else .error .assertCap
    else .error .assertCap

/-- `push` (lib.rs:243–246): assert spare capacity, then `Vec::push` (which
reallocates only when the vector is full). -/
def FCVec.push {T : Type} (v : FCVec T) (x : T) : Except (Err × FCVec T) (FCVec T) :=
  match v.additional_cap with
  | .error e => .error (e, v)
  | .ok c =>
    if 0 < c then
      let bu := v.buffer
      if bu.len < bu.store.length then
        .ok ⟨⟨writeAt bu.store bu.len [x], bu.len + 1⟩, v.start, v.max_len⟩
      else
        .ok ⟨⟨bu.store ++ [some x], bu.len + 1⟩, v.start, v.max_len⟩
    else .error (.assertCap, v)

/-- `extend_from_slice` (lib.rs:134–141): assert the slice fits, `set_len`
to the new length, then copy the slice into the freshly exposed region. -/
def FCVec.extend_from_slice {T : Type} (v : FCVec T) (other : List T) :
    Except (Err × FCVec T) (FCVec T) :=
  match v.additional_cap with
  | .error e => .error (e, v)
  | .ok c =>
    if other.length ≤ c then
      let bu := v.buffer
      -- `set_len(len + other.len())` happens before the copy
      match copySliceIn bu.store bu.len other with
      | .ok st => .ok ⟨⟨st, bu.len + other.length⟩, v.start, v.max_len⟩
      | .error e => .error (e, ⟨⟨bu.store, bu.len + other.length⟩, v.start, v.max_len⟩)
    else .error (.assertCap, v)

/-- `Extend::extend` (lib.rs:284–289): for each item, assert spare capacity
and push.  The loop body is identical to `push`. -/
def FCVec.extendIter {T : Type} (v : FCVec T) : List T → Except (Err × FCVec T) (FCVec T)
  | [] => .ok v
  | x :: rest =>
    match v.push x with
    | .ok v1 => v1.extendIter rest
    | .error e => .error e

/-- A ghost record of one self-referential bulk copy performed by
`extend_with_repeat`: `cnt` cells from index `src` to index `dst`, at a
moment when the cells `[src of the run, fillEnd)` were the ones already
written by the call. -/
structure CopyEvent where
  src : Nat
  dst : Nat
  cnt : Nat
  fillEnd : Nat
deriving DecidableEq, Repr

/-- The doubling loop of `extend_with_repeat` (lib.rs:183–196): while
`m > 0`, copy the already-written run `[bs, bf)` (of size `cs`) to `bf`,
then double `cs` and halve `m`.  Each copy is recorded as a ghost
`CopyEvent`. -/
def doublingLoop {T : Type} (bs : Nat) (m : Nat) (st : List (Option T))
    (bf cs : Nat) (log : List CopyEvent) :
    Except (Err × List (Option T) × List CopyEvent)
      (List (Option T) × Nat × Nat × List CopyEvent) :=
  if _h : m = 0 then .ok (st, bf, cs, log)
  else
    match copyNonoverlapping st bs bf cs with
    | .error e => .error (e, st, log)
    | .ok st1 =>
      doublingLoop bs (m / 2) st1 (bf + cs) (cs * 2) (log ++ [⟨bs, bf, cs, bf⟩])
termination_by m
decreasing_by simp_wf; omega

/-- `extend_with_repeat` (lib.rs:163–211).  Checks:
`slice.len().checked_mul(n).expect("capacity overflow")` and
`assert!(cap_needed <= self.additional_cap())`; then the initial copy of the
slice, the doubling loop, and the remainder copy
(`rem_len = cap_needed - copy_size`), and finally
`set_len(start_pos + cap_needed)`.  The returned `List CopyEvent` is a ghost
log of the self-referential copies (the initial copy sources from the
external slice and is not logged). -/
def FCVec.extend_with_repeat {T : Type} (v : FCVec T) (slice : List T) (n : Nat) :
    Except (Err × FCVec T × List CopyEvent) (FCVec T × List CopyEvent) :=
  if slice.length * n < USIZE then
    match v.additional_cap with
    | .error e => .error (e, v, [])
    | .ok c =>
      if slice.length * n ≤ c then
        let bu := v.buffer
        let start_pos := bu.len
        -- initial copy from `slice`; all later copies source from the buffer
        match copySliceIn bu.store start_pos slice with
        | .error e => .error (e, v, [])
        | .ok st0 =>
          match doublingLoop start_pos (n / 2) st0 (start_pos + slice.length)
              slice.length [] with
          | .error (e, st1, log) => .error (e, ⟨⟨st1, bu.len⟩, v.start, v.max_len⟩, log)
          | .ok (st1, bf, cs, log) =>
            -- `let rem_len = cap_needed - copy_size;`
            match checkedSub (slice.length * n) cs with
            | .error e => .error (e, ⟨⟨st1, bu.len⟩, v.start, v.max_len⟩, log)
            | .ok rem_len =>
              if 0 < rem_len then
                match copyNonoverlapping st1 start_pos bf rem_len with
                | .error e =>
                  .error (e, ⟨⟨st1, bu.len⟩, v.start, v.max_len⟩, log)
                | .ok st2 =>
                  .ok (⟨⟨st2, start_pos + slice.length * n⟩, v.start, v.max_len⟩,
                    log ++ [⟨start_pos, bf, rem_len, bf⟩])
              else
                .ok (⟨⟨st1, start_pos + slice.length * n⟩, v.start, v.max_len⟩, log)
      else .error (.assertCap, v, [])
  else .error (.mulOverflow, v, [])

/-- Writing through the slice returned by `deref_mut`/`as_mut`
(lib.rs:274–277, 305–307): `(&mut self.buffer[self.start..])[i] = x`. -/
def FCVec.asMutWrite {T : Type} (v : FCVec T) (i : Nat) (x : T) :
    Except (Err × FCVec T) (FCVec T) :=
  if v.start ≤ v.buffer.len then
    if v.start + i < v.buffer.len then
      .ok ⟨⟨writeAt v.buffer.store (v.start + i) [x], v.buffer.len⟩, v.start, v.max_len⟩
    else .error (.indexPanic, v)
  else .error (.indexPanic, v)

/-- `decode_rle_lib_optim` (benches/decode_rle.rs:48–59). -/
def decode_rle_lib_optim {T : Type} (buffer : RustVec T)
    (repeating_fragment_len num_bytes_to_fill : Nat) : Except Err (RustVec T) :=
  match buffer.with_fixed_capacity num_bytes_to_fill with
  | .error e => .error e
  | .ok (old, append) =>
    -- `&old[(old.len() - repeating_fragment_len)..]`
    match checkedSub old.length repeating_fragment_len with
    | .error e => .error e
    | .ok lo =>
      let slice_to_repeat := old.drop lo
      -- `num_bytes_to_fill / slice_to_repeat.len()`
      if slice_to_repeat.length = 0 then .error .divByZero
      else
        let full_repeats := num_bytes_to_fill / slice_to_repeat.length
        match append.extend_with_repeat slice_to_repeat full_repeats with
        | .error (e, _, _) => .error e
        | .ok (append1, _) =>
          -- `let filled = append.len();`
          match append1.curLen with
          | .error e => .error e
          | .ok filled =>
            -- `&slice_to_repeat[..(num_bytes_to_fill - filled)]`
            match checkedSub num_bytes_to_fill filled with
            | .error e => .error e
            | .ok k =>
              if k ≤ slice_to_repeat.length then
                match append1.extend_from_slice (slice_to_repeat.take k) with
                | .error (e, _) => .error e
                | .ok append2 => .ok append2.buffer
              else .error .indexPanic

/-- The operations a caller can perform through the cursor's public
interface (reads through `Deref`/`AsRef` do not change state and are
omitted; `asMutWrite` is a write through `DerefMut`/`AsMut`). -/
inductive Op (T : Type) where
  | push (x : T)
  | extendFromSlice (l : List T)
  | extendWithRepeat (l : List T) (n : Nat)
  | extendIter (l : List T)
  | asMutWrite (i : Nat) (x : T)

/-- One cursor operation. -/
def step {T : Type} (v : FCVec T) : Op T → Except (Err × FCVec T) (FCVec T)
  | .push x => v.push x
  | .extendFromSlice l => v.extend_from_slice l
  | .extendWithRepeat l n =>
    match v.extend_with_repeat l n with
    | .ok (v1, _) => .ok v1
    | .error (e, v1, _) => .error (e, v1)
  | .extendIter l => v.extendIter l
  | .asMutWrite i x => v.asMutWrite i x

/-- A sequence of cursor operations; stops at the first panic. -/
def runOps {T : Type} (v : FCVec T) : List (Op T) → Except (Err × FCVec T) (FCVec T)
  | [] => .ok v
  | op :: rest =>
    match step v op with
    | .ok v1 => runOps v1 rest
    | .error e => .error e

/-- The buffer state after an operation, whether it returned or panicked. -/
def outState {T : Type} : Except (Err × FCVec T) (FCVec T) → FCVec T
  | .ok v => v
  | .error (_, v) => v

/-- `slice` concatenated with itself `n` times. -/
def repeatN {T : Type} (s : List T) : Nat → List T
  | 0 => []
  | n + 1 => s ++ repeatN s n

/-- Invariant of a live write cursor claimed by the spec:
`origin_len ≤ Buffer.length ≤ max_len`. -/
def CursorInv {T : Type} (v : FCVec T) : Prop :=
  v.start ≤ v.buffer.len ∧ v.buffer.len ≤ v.max_len

/-- `CursorInv` plus the allocation promise `max_len ≤ capacity`. -/
def Inv {T : Type} (v : FCVec T) : Prop :=
  v.start ≤ v.buffer.len ∧ v.buffer.len ≤ v.max_len ∧
    v.max_len ≤ v.buffer.store.length

section Toolkit

variable {T : Type}

theorem seqOpt_map_some (l : List T) : seqOpt (l.map some) = some l := by
  induction l with
  | nil => rfl
  | cons x xs ih => simp [seqOpt, ih]

theorem seqOpt_eq_some {st : List (Option T)} {l : List T}
    (h : seqOpt st = some l) : st = l.map some := by
  induction st generalizing l with
  | nil => simp [seqOpt] at h; simp [← h]
  | cons c cs ih =>
    cases c with
    | none => simp [seqOpt] at h
    | some x =>
      simp only [seqOpt] at h
      cases hrec : seqOpt cs with
      | none => rw [hrec] at h; simp at h
      | some l2 =>
        rw [hrec] at h
        simp at h
        subst h
        simp [ih hrec]

theorem seqOpt_of_all {st : List (Option T)} (h : st.all Option.isSome) :
    ∃ l, seqOpt st = some l := by
  induction st with
  | nil => exact ⟨[], rfl⟩
  | cons c cs ih =>
    rw [List.all_cons, Bool.and_eq_true] at h
    obtain ⟨h1, h2⟩ := h
    obtain ⟨x, hx⟩ := Option.isSome_iff_exists.mp h1
    obtain ⟨l, hl⟩ := ih h2
    exact ⟨x :: l, by simp [hx, seqOpt, hl]⟩

theorem repeatN_nil (n : Nat) : repeatN ([] : List T) n = [] := by
  induction n with
  | zero => rfl
  | succ n ih => simp [repeatN, ih]

theorem length_repeatN (s : List T) (n : Nat) :
    (repeatN s n).length = s.length * n := by
  induction n with
  | zero => simp [repeatN]
  | succ n ih => simp [repeatN, ih]; ring

theorem repeatN_one (s : List T) : repeatN s 1 = s := by
  simp [repeatN]

theorem repeatN_eq_of_mul_eq {s : List T} {a b : Nat}
    (h : s.length * a = s.length * b) : repeatN s a = repeatN s b := by
  cases s with
  | nil => rw [repeatN_nil, repeatN_nil]
  | cons x xs =>
    have hab : a = b := Nat.eq_of_mul_eq_mul_left (by simp) h
    rw [hab]

theorem repeatN_add (s : List T) (a b : Nat) :
    repeatN s (a + b) = repeatN s a ++ repeatN s b := by
  induction a with
  | zero => simp [repeatN]
  | succ a ih =>
    have : a + 1 + b = (a + b) + 1 := by omega
    rw [this, repeatN, repeatN, ih, List.append_assoc]

theorem repeatN_take (s : List T) {q K : Nat} (h : q ≤ K) :
    (repeatN s K).take (s.length * q) = repeatN s q := by
  have hK : K = q + (K - q) := by omega
  rw [hK, repeatN_add]
  rw [List.take_append_of_le_length (by rw [length_repeatN])]
  have : s.length * q = (repeatN s q).length := (length_repeatN s q).symm
  rw [this, List.take_length]

theorem length_writeAt {st : List (Option T)} {dst : Nat} {src : List T}
    (h : dst + src.length ≤ st.length) :
    (writeAt st dst src).length = st.length := by
  simp [writeAt]; omega

theorem take_writeAt {st : List (Option T)} {dst : Nat} {src : List T} {k : Nat}
    (h1 : k ≤ dst) (h2 : k ≤ st.length) :
    (writeAt st dst src).take k = st.take k := by
  unfold writeAt
  rw [List.append_assoc, List.take_append_of_le_length (by simp; omega),
    List.take_take, Nat.min_eq_left h1]

theorem drop_writeAt {st : List (Option T)} {dst : Nat} {src : List T} {j : Nat}
    (h1 : dst + src.length ≤ j) (h2 : dst ≤ st.length) :
    (writeAt st dst src).drop j = st.drop j := by
  unfold writeAt
  have hlen : (st.take dst ++ src.map some).length = dst + src.length := by
    simp; omega
  have hj : j = (st.take dst ++ src.map some).length + (j - (dst + src.length)) := by
    omega
  rw [List.append_assoc, ← List.append_assoc, hj, List.drop_append, List.drop_drop]
  congr 1
  omega

theorem segment_eq_take_drop (st : List (Option T)) (a c : Nat) :
    segment st a c = (st.take (a + c)).drop a := by
  rw [segment, List.drop_take]
  congr 1
  omega

theorem length_segment {st : List (Option T)} {a c : Nat} (h : a + c ≤ st.length) :
    (segment st a c).length = c := by
  simp [segment]; omega

theorem segment_split (st : List (Option T)) (a c1 c2 : Nat) :
    segment st a (c1 + c2) = segment st a c1 ++ segment st (a + c1) c2 := by
  simp only [segment]
  rw [List.take_add, List.drop_drop]

theorem segment_take (st : List (Option T)) {c1 c2 : Nat} (a : Nat) (h : c1 ≤ c2) :
    (segment st a c2).take c1 = segment st a c1 := by
  simp only [segment]
  rw [List.take_take, Nat.min_eq_left h]

theorem getElem?_segment {st : List (Option T)} {a c i : Nat} (hi : i < c) :
    (segment st a c)[i]? = st[a + i]? := by
  rw [segment, List.getElem?_take_of_lt hi, List.getElem?_drop]

theorem take_append_len {A B : List (Option T)} {a : Nat} (b : Nat)
    (h : A.length = a) : (A ++ B).take (a + b) = A ++ B.take b := by
  subst h
  rw [List.take_append]

theorem drop_append_len {A B : List (Option T)} {a : Nat} (b : Nat)
    (h : A.length = a) : (A ++ B).drop (a + b) = B.drop b := by
  subst h
  rw [List.drop_append]

theorem take_len_append {A B : List (Option T)} {a : Nat}
    (h : A.length = a) : (A ++ B).take a = A := by
  subst h
  rw [List.take_left]

theorem drop_len_append {A B : List (Option T)} {a : Nat}
    (h : A.length = a) : (A ++ B).drop a = B := by
  subst h
  rw [List.drop_left]

theorem segment_writeAt_self {st : List (Option T)} {dst : Nat} {src : List T}
    (h : dst + src.length ≤ st.length) :
    segment (writeAt st dst src) dst src.length = src.map some := by
  unfold writeAt segment
  have hlen : (st.take dst).length = dst := by simp; omega
  rw [List.append_assoc]
  have hdrop := drop_append_len
    (A := st.take dst) (B := src.map some ++ st.drop (dst + src.length)) 0 hlen
  rw [Nat.add_zero, List.drop_zero] at hdrop
  rw [hdrop, List.take_append_of_le_length (by simp)]
  simp

theorem segment_writeAt_left {st : List (Option T)} {dst : Nat} {src : List T}
    {a c : Nat} (h1 : a + c ≤ dst) (h2 : a + c ≤ st.length) :
    segment (writeAt st dst src) a c = segment st a c := by
  rw [segment_eq_take_drop, segment_eq_take_drop,
    take_writeAt h1 h2]

theorem take_seg_drop (st : List (Option T)) (a c : Nat) :
    st = st.take a ++ segment st a c ++ st.drop (a + c) := by
  conv_lhs => rw [← List.take_append_drop a st]
  rw [List.append_assoc]
  congr 1
  conv_lhs => rw [← List.take_append_drop c (st.drop a)]
  rw [List.drop_drop]
  rfl

theorem readInit_of_segment {st : List (Option T)} {src cnt : Nat} {vals : List T}
    (h : src + cnt ≤ st.length) (h2 : segment st src cnt = vals.map some) :
    readInit st src cnt = .ok vals := by
  simp [readInit, h, h2, seqOpt_map_some]

theorem readInit_prefix {st : List (Option T)} {len : Nat}
    (h1 : len ≤ st.length) (h2 : (st.take len).all Option.isSome) :
    ∃ l, readInit st 0 len = .ok l ∧ l.map some = st.take len ∧ l.length = len := by
  obtain ⟨l, hl⟩ := seqOpt_of_all h2
  have hst : st.take len = l.map some := seqOpt_eq_some hl
  refine ⟨l, ?_, hst.symm, ?_⟩
  · have hseg : segment st 0 len = l.map some := by
      rw [segment, List.drop_zero, hst]
    exact readInit_of_segment (by omega) hseg
  · have := congrArg List.length hst
    simp at this
    omega

end Toolkit

/-- Number of iterations of the doubling loop started at `m`:
`0` if `m = 0`, otherwise `⌊log₂ m⌋ + 1`. -/
def itersF (m : Nat) : Nat :=
  if m = 0 then 0 else itersF (m / 2) + 1
termination_by m
decreasing_by simp_wf; omega

theorem itersF_zero : itersF 0 = 0 := by
  unfold itersF
  rfl

theorem itersF_succ {m : Nat} (h : m ≠ 0) : itersF m = itersF (m / 2) + 1 := by
  conv_lhs => rw [itersF]
  simp [h]

theorem itersF_bounds (m : Nat) :
    m < 2 ^ itersF m ∧ (1 ≤ m → 2 ^ itersF m ≤ 2 * m) := by
  induction m using Nat.strong_induction_on with
  | _ m ih =>
    by_cases hm : m = 0
    · subst hm
      simp [itersF_zero]
    · rw [itersF_succ hm]
      by_cases hm2 : m / 2 = 0
      · have h1 : m = 1 := by omega
        subst h1
        simp [hm2, itersF_zero]
      · obtain ⟨ih1, ih2⟩ := ih (m / 2) (by omega)
        have ih2' := ih2 (by omega)
        rw [pow_succ]
        omega

theorem two_pow_itersF (n : Nat) (h : 1 ≤ n) :
    2 ^ itersF (n / 2) ≤ n ∧ n < 2 * 2 ^ itersF (n / 2) := by
  by_cases h2 : n / 2 = 0
  · have : n = 1 := by omega
    subst this
    simp [h2, itersF_zero]
  · obtain ⟨b1, b2⟩ := itersF_bounds (n / 2)
    have b2' := b2 (by omega)
    omega

section LoopLemma

variable {T : Type}

/-- Full characterization of a successful run of the doubling loop: with the
already-written run `[bs, bf)` holding `k` copies of `s` (of total size
`cs = |s|·k`) and enough allocated space, the loop returns with
`copy_size` multiplied by `2 ^ itersF m`, the run extended to that many
copies of `s`, everything outside `[bf, bs + cs')` untouched, and every
ghost event a copy of already-written cells to the position right after
them. -/
theorem doublingLoop_ok (s : List T) (m : Nat) :
    ∀ (st : List (Option T)) (bs bf cs k : Nat) (log : List CopyEvent),
    bf = bs + cs →
    cs = s.length * k →
    segment st bs cs = (repeatN s k).map some →
    bs + cs * 2 ^ itersF m ≤ st.length →
    ∃ st' bf' cs' log',
      doublingLoop bs m st bf cs log = .ok (st', bf', cs', log ++ log') ∧
      cs' = cs * 2 ^ itersF m ∧
      bf' = bs + cs' ∧
      st' = st.take bf ++ (repeatN s (k * 2 ^ itersF m - k)).map some ++
        st.drop (bf + (cs * 2 ^ itersF m - cs)) ∧
      st'.length = st.length ∧
      segment st' bs cs' = (repeatN s (k * 2 ^ itersF m)).map some ∧
      (∀ ev ∈ log', ev.src = bs ∧ ev.fillEnd = ev.dst ∧ ev.src + ev.cnt ≤ ev.dst) := by
  induction m using Nat.strong_induction_on with
  | _ m ih =>
    intro st bs bf cs k log hbf hcs hseg hcap
    by_cases hm : m = 0
    · subst hm
      refine ⟨st, bf, cs, [], ?_, ?_, ?_, ?_, rfl, ?_, ?_⟩
      · rw [doublingLoop]
        simp
      · simp [itersF_zero]
      · omega
      · simp [itersF_zero, repeatN]
      · simpa [itersF_zero] using hseg
      · simp
    · -- one copy, then the recursive call on `m / 2`
      have hmpos : 1 ≤ m := by omega
      have he1 : 1 ≤ itersF m := by rw [itersF_succ hm]; omega
      have hP1 : 1 ≤ 2 ^ itersF (m / 2) := Nat.one_le_two_pow
      have hpow : 2 ^ itersF m = 2 ^ itersF (m / 2) * 2 := by
        rw [itersF_succ hm, pow_succ]
      have h2cs : bs + (cs + cs) ≤ st.length := by
        have : cs * 2 ≤ cs * 2 ^ itersF m := by
          apply Nat.mul_le_mul_left
          calc 2 = 2 ^ 1 := by norm_num
          _ ≤ 2 ^ itersF m := Nat.pow_le_pow_right (by norm_num) he1
        omega
      have hlenrep : (repeatN s k).length = cs := by rw [length_repeatN, hcs]
      -- the copy succeeds
      have hread : readInit st bs cs = .ok (repeatN s k) :=
        readInit_of_segment (by omega) hseg
      have hcopy : copyNonoverlapping st bs bf cs = .ok (writeAt st bf (repeatN s k)) := by
        unfold copyNonoverlapping
        rw [if_pos (by omega), if_pos (by omega), hread]
      set st1 := writeAt st bf (repeatN s k) with hst1
      have hst1len : st1.length = st.length := by
        rw [hst1]
        exact length_writeAt (by omega)
      have hst1eq : st1 = st.take bf ++ (repeatN s k).map some ++ st.drop (bf + cs) := by
        rw [hst1]
        unfold writeAt
        rw [hlenrep]
      -- region [bs, bs + 2cs) of st1 holds 2k copies of s
      have hseg1 : segment st1 bs (cs * 2) = (repeatN s (k * 2)).map some := by
        have hsplit := segment_split st1 bs cs cs
        have hl : segment st1 bs cs = (repeatN s k).map some := by
          rw [hst1, segment_writeAt_left (by omega) (by omega), hseg]
        have hr : segment st1 (bs + cs) cs = (repeatN s k).map some := by
          have hself := @segment_writeAt_self T st bf (repeatN s k) (by omega)
          rw [hlenrep, ← hst1] at hself
          rw [← hbf]
          exact hself
        rw [Nat.mul_two, hsplit, hl, hr, Nat.mul_two, repeatN_add, List.map_append]
      -- apply the induction hypothesis
      have hrec := ih (m / 2) (by omega) st1 bs (bf + cs) (cs * 2) (k * 2)
        (log ++ [⟨bs, bf, cs, bf⟩])
        (by omega) (by rw [hcs]; ring) hseg1
        (by rw [hst1len]; calc bs + cs * 2 * 2 ^ itersF (m / 2)
              = bs + cs * 2 ^ itersF m := by rw [hpow]; ring_nf
            _ ≤ st.length := hcap)
      obtain ⟨st2, bf2, cs2, log2, hrun, hcs2, hbf2, hst2, hst2len, hseg2, hlog2⟩ := hrec
      refine ⟨st2, bf2, cs2, ⟨bs, bf, cs, bf⟩ :: log2, ?_, ?_, ?_, ?_, ?_, ?_, ?_⟩
      · rw [doublingLoop, dif_neg hm, hcopy]
        show doublingLoop bs (m / 2) st1 (bf + cs) (cs * 2)
          (log ++ [⟨bs, bf, cs, bf⟩]) = _
        rw [hrun]
        simp
      · rw [hcs2, hpow]; ring
      · omega
      · -- rewrite the shape of st2 from st1-form to st-form
        rw [hst2, hst1eq]
        set P := 2 ^ itersF (m / 2) with hPdef
        have hk2P : k * 2 ≤ k * 2 * P := Nat.le_mul_of_pos_right _ (by omega)
        have hcs2P : cs * 2 ≤ cs * 2 * P := Nat.le_mul_of_pos_right _ (by omega)
        have htk : (st.take bf ++ (repeatN s k).map some ++ st.drop (bf + cs)).take (bf + cs)
            = st.take bf ++ (repeatN s k).map some := by
          rw [List.append_assoc]
          rw [take_append_len (A := st.take bf)
            (B := (repeatN s k).map some ++ st.drop (bf + cs)) cs (by simp; omega)]
          rw [take_len_append (A := (repeatN s k).map some)
            (B := st.drop (bf + cs)) (by simp [hlenrep])]
        have hdr : ∀ x : Nat,
            (st.take bf ++ (repeatN s k).map some ++ st.drop (bf + cs)).drop (bf + cs + x)
            = st.drop (bf + cs + x) := by
          intro x
          rw [drop_append_len (A := st.take bf ++ (repeatN s k).map some)
            (B := st.drop (bf + cs)) x (by simp [hlenrep]; omega)]
          rw [List.drop_drop]
        rw [htk, hdr]
        rw [hpow]
        have e1 : k * (P * 2) - k = k + (k * 2 * P - k * 2) := by
          have h1 : k * (P * 2) = k * 2 * P := by ring
          rw [h1]
          omega
        have e2 : bf + (cs * (P * 2) - cs) = bf + cs + (cs * 2 * P - cs * 2) := by
          have h1 : cs * (P * 2) = cs * 2 * P := by ring
          rw [h1]
          omega
        rw [e1, e2, repeatN_add, List.map_append]
        simp [List.append_assoc]
      · omega
      · rw [hseg2]
        congr 2
        rw [hpow]
        ring
      · intro ev hev
        rw [List.mem_cons] at hev
        rcases hev with rfl | hev
        · refine ⟨rfl, rfl, ?_⟩
          show bs + cs ≤ bf
          omega
        · exact hlog2 ev hev

end LoopLemma

section MainLemma

variable {T : Type}

/-- Successful run of `extend_with_repeat`: under the documented
preconditions (the product fits `usize` and the remaining capacity) and
excluding the `n = 0`-with-non-empty-slice corner, the call appends exactly
`n` back-to-back copies of the slice, advances the length by
`s.length * n`, leaves every other cell untouched, and every ghost
self-copy event sources at the start of the run and writes at or after the
end of its source range. -/
theorem extend_with_repeat_ok (v : FCVec T) (s : List T) (n : Nat)
    (h1 : s.length * n < USIZE)
    (h2 : v.buffer.len ≤ v.max_len)
    (h3 : v.max_len ≤ v.buffer.store.length)
    (h4 : s.length * n ≤ v.max_len - v.buffer.len)
    (h5 : 1 ≤ n ∨ s = []) :
    ∃ log,
      v.extend_with_repeat s n =
        .ok (⟨⟨v.buffer.store.take v.buffer.len ++ (repeatN s n).map some ++
            v.buffer.store.drop (v.buffer.len + s.length * n),
          v.buffer.len + s.length * n⟩, v.start, v.max_len⟩, log) ∧
      ∀ ev ∈ log, ev.src = v.buffer.len ∧ ev.fillEnd = ev.dst ∧
        ev.src + ev.cnt ≤ ev.dst := by
  have hac : v.additional_cap = .ok (v.max_len - v.buffer.len) := by
    unfold FCVec.additional_cap checkedSub
    rw [if_pos h2]
  have hcap' : v.buffer.len + s.length * n ≤ v.buffer.store.length := by omega
  by_cases hn : 1 ≤ n
  · -- main case: at least one repetition
    have hsle : s.length ≤ s.length * n := by
      calc s.length = s.length * 1 := by ring
      _ ≤ s.length * n := Nat.mul_le_mul_left _ hn
    obtain ⟨hE1, hE2⟩ := two_pow_itersF n hn
    have hmulE : s.length * 2 ^ itersF (n / 2) ≤ s.length * n :=
      Nat.mul_le_mul_left _ hE1
    have hmulE2 : s.length * n ≤ 2 * (s.length * 2 ^ itersF (n / 2)) := by
      calc s.length * n ≤ s.length * (2 * 2 ^ itersF (n / 2)) :=
            Nat.mul_le_mul_left _ (Nat.le_of_lt hE2)
      _ = 2 * (s.length * 2 ^ itersF (n / 2)) := by ring
    have hsleE : s.length ≤ s.length * 2 ^ itersF (n / 2) :=
      Nat.le_mul_of_pos_right _ Nat.one_le_two_pow
    -- the initial copy of the slice
    have hcopy0 : copySliceIn v.buffer.store v.buffer.len s =
        .ok (writeAt v.buffer.store v.buffer.len s) := by
      unfold copySliceIn
      rw [if_pos (by omega)]
    have hst0eq : writeAt v.buffer.store v.buffer.len s =
        v.buffer.store.take v.buffer.len ++ s.map some ++
          v.buffer.store.drop (v.buffer.len + s.length) := rfl
    have hst0len : (writeAt v.buffer.store v.buffer.len s).length
        = v.buffer.store.length := length_writeAt (by omega)
    have hseg0 : segment (writeAt v.buffer.store v.buffer.len s)
        v.buffer.len s.length = (repeatN s 1).map some := by
      rw [repeatN_one]
      exact segment_writeAt_self (by omega)
    -- the doubling loop
    obtain ⟨st1, bf1, cs1, log1, hrun, hcs1, hbf1, hst1, hst1len, hseg1, hlog1⟩ :=
      doublingLoop_ok s (n / 2) (writeAt v.buffer.store v.buffer.len s)
        v.buffer.len (v.buffer.len + s.length) s.length 1 []
        rfl (by ring) hseg0 (by rw [hst0len]; omega)
    subst hcs1
    subst hbf1
    rw [one_mul] at hst1 hseg1
    -- pieces of the state after the loop
    have htkst0 : (writeAt v.buffer.store v.buffer.len s).take (v.buffer.len + s.length)
        = v.buffer.store.take v.buffer.len ++ s.map some := by
      rw [hst0eq, List.append_assoc,
        take_append_len (A := v.buffer.store.take v.buffer.len) s.length (by simp; omega),
        take_len_append (A := s.map some) (by simp)]
    have hdrst0 : ∀ x, (writeAt v.buffer.store v.buffer.len s).drop (v.buffer.len + s.length + x)
        = v.buffer.store.drop (v.buffer.len + s.length + x) := by
      intro x
      rw [hst0eq,
        drop_append_len (A := v.buffer.store.take v.buffer.len ++ s.map some) x
          (by simp; omega),
        List.drop_drop]
    have hcat : s ++ repeatN s (2 ^ itersF (n / 2) - 1) = repeatN s (2 ^ itersF (n / 2)) := by
      conv_rhs => rw [show 2 ^ itersF (n / 2) = 1 + (2 ^ itersF (n / 2) - 1) by
        have := Nat.one_le_two_pow (n := itersF (n / 2)); omega]
      rw [repeatN_add, repeatN_one]
    have hst1S : st1 = v.buffer.store.take v.buffer.len ++
        (repeatN s (2 ^ itersF (n / 2))).map some ++
        v.buffer.store.drop (v.buffer.len + s.length * 2 ^ itersF (n / 2)) := by
      rw [hst1, htkst0, hdrst0]
      have hx : v.buffer.len + s.length + (s.length * 2 ^ itersF (n / 2) - s.length)
          = v.buffer.len + s.length * 2 ^ itersF (n / 2) := by omega
      rw [hx]
      simp only [List.append_assoc]
      congr 1
      rw [← List.append_assoc, ← List.map_append, hcat]
    have hlen1 : st1.length = v.buffer.store.length := by rw [hst1len, hst0len]
    -- the remainder length computed by the code
    have hsub : checkedSub (s.length * n) (s.length * 2 ^ itersF (n / 2)) =
        .ok (s.length * n - s.length * 2 ^ itersF (n / 2)) := by
      unfold checkedSub
      rw [if_pos hmulE]
    have hremc : s.length * n - s.length * 2 ^ itersF (n / 2)
        = s.length * (n - 2 ^ itersF (n / 2)) := (Nat.mul_sub _ _ _).symm
    by_cases hremz : 0 < s.length * n - s.length * 2 ^ itersF (n / 2)
    · -- a final remainder copy happens
      have hlenrem : (repeatN s (n - 2 ^ itersF (n / 2))).length
          = s.length * n - s.length * 2 ^ itersF (n / 2) := by
        rw [length_repeatN, ← hremc]
      have hreadrem : readInit st1 v.buffer.len
          (s.length * n - s.length * 2 ^ itersF (n / 2)) =
          .ok (repeatN s (n - 2 ^ itersF (n / 2))) := by
        apply readInit_of_segment (by omega)
        rw [← @segment_take T st1 (s.length * n - s.length * 2 ^ itersF (n / 2))
            (s.length * 2 ^ itersF (n / 2)) v.buffer.len (by omega),
          hseg1, ← List.map_take, hremc, repeatN_take s (by omega)]
      have hcopy2 : copyNonoverlapping st1 v.buffer.len
          (v.buffer.len + s.length * 2 ^ itersF (n / 2))
          (s.length * n - s.length * 2 ^ itersF (n / 2)) =
          .ok (writeAt st1 (v.buffer.len + s.length * 2 ^ itersF (n / 2))
            (repeatN s (n - 2 ^ itersF (n / 2)))) := by
        unfold copyNonoverlapping
        rw [if_pos (by omega), if_pos (Or.inl (by omega)), hreadrem]
      have htkst1 : st1.take (v.buffer.len + s.length * 2 ^ itersF (n / 2))
          = v.buffer.store.take v.buffer.len ++
            (repeatN s (2 ^ itersF (n / 2))).map some := by
        rw [hst1S]
        exact take_len_append
          (A := v.buffer.store.take v.buffer.len ++
            (repeatN s (2 ^ itersF (n / 2))).map some)
          (by simp [length_repeatN]; omega)
      have hdrst1 : st1.drop (v.buffer.len + s.length * 2 ^ itersF (n / 2) +
            (s.length * n - s.length * 2 ^ itersF (n / 2)))
          = v.buffer.store.drop (v.buffer.len + s.length * n) := by
        rw [hst1S,
          drop_append_len (A := v.buffer.store.take v.buffer.len ++
              (repeatN s (2 ^ itersF (n / 2))).map some)
            (s.length * n - s.length * 2 ^ itersF (n / 2))
            (by simp [length_repeatN]; omega),
          List.drop_drop]
        congr 1
        omega
      have hmid : (repeatN s (2 ^ itersF (n / 2))).map some ++
          (repeatN s (n - 2 ^ itersF (n / 2))).map (some : T → Option T) =
          (repeatN s n).map some := by
        rw [← List.map_append, ← repeatN_add]
        congr 2
        omega
      have hfinal : writeAt st1 (v.buffer.len + s.length * 2 ^ itersF (n / 2))
          (repeatN s (n - 2 ^ itersF (n / 2))) =
          v.buffer.store.take v.buffer.len ++ (repeatN s n).map some ++
            v.buffer.store.drop (v.buffer.len + s.length * n) := by
        unfold writeAt
        rw [hlenrem, htkst1, hdrst1]
        simp only [List.append_assoc]
        congr 1
        rw [← List.append_assoc, hmid]
      refine ⟨log1 ++ [⟨v.buffer.len, v.buffer.len + s.length * 2 ^ itersF (n / 2),
        s.length * n - s.length * 2 ^ itersF (n / 2),
        v.buffer.len + s.length * 2 ^ itersF (n / 2)⟩], ?_, ?_⟩
      · simp only [FCVec.extend_with_repeat, hac, hcopy0, hrun, hsub, hcopy2,
          if_pos h1, if_pos h4, if_pos hremz, List.nil_append]
        rw [hfinal]
      · intro ev hev
        rw [List.mem_append] at hev
        rcases hev with hev | hev
        · exact hlog1 ev hev
        · rw [List.mem_singleton] at hev
          subst hev
          refine ⟨rfl, rfl, ?_⟩
          show v.buffer.len + (s.length * n - s.length * 2 ^ itersF (n / 2))
            ≤ v.buffer.len + s.length * 2 ^ itersF (n / 2)
          omega
    · -- no remainder: the loop already produced everything
      have heq : s.length * n = s.length * 2 ^ itersF (n / 2) := by omega
      have hrepeq : repeatN s (2 ^ itersF (n / 2)) = repeatN s n :=
        repeatN_eq_of_mul_eq heq.symm
      have hfinal0 : st1 =
          v.buffer.store.take v.buffer.len ++ (repeatN s n).map some ++
            v.buffer.store.drop (v.buffer.len + s.length * n) := by
        rw [hst1S, hrepeq, ← heq]
      refine ⟨log1, ?_, ?_⟩
      · simp only [FCVec.extend_with_repeat, hac, hcopy0, hrun, hsub,
          if_pos h1, if_pos h4, if_neg hremz, List.nil_append]
        rw [hfinal0]
      · intro ev hev
        exact hlog1 ev hev
  · -- `n = 0` and (by `h5`) the slice is empty: a genuine no-op
    have hn0 : n = 0 := by omega
    have hs : s = [] := by
      rcases h5 with h5 | h5
      · omega
      · exact h5
    subst hn0
    subst hs
    refine ⟨[], ?_, by simp⟩
    have hcopy0 : copySliceIn v.buffer.store v.buffer.len ([] : List T) =
        .ok (writeAt v.buffer.store v.buffer.len []) := by
      unfold copySliceIn
      rw [if_pos (by simp; omega)]
    have hloop : doublingLoop v.buffer.len (0 / 2)
        (writeAt v.buffer.store v.buffer.len ([] : List T))
        (v.buffer.len + ([] : List T).length) ([] : List T).length [] =
        .ok (writeAt v.buffer.store v.buffer.len ([] : List T),
          v.buffer.len + ([] : List T).length, ([] : List T).length, []) := by
      rw [doublingLoop]
      rw [dif_pos (by norm_num)]
    have hsub : checkedSub (([] : List T).length * 0) (([] : List T).length) =
        .ok 0 := by
      unfold checkedSub
      norm_num
    simp only [FCVec.extend_with_repeat, hac, hcopy0, hloop, hsub,
      if_pos h1, if_pos h4]
    norm_num [writeAt, repeatN]

end MainLemma

section ErrChar

variable {T : Type}

theorem checkedSub_err {a b : Nat} {e : Err} (h : checkedSub a b = .error e) :
    e = .subOverflow := by
  unfold checkedSub at h
  split at h
  · exact absurd h (by simp)
  · simp at h
    exact h.symm

theorem readInit_err {st : List (Option T)} {src cnt : Nat} {e : Err}
    (h : readInit st src cnt = .error e) : e = .uninitRead ∨ e = .oobRead := by
  unfold readInit at h
  split at h
  · split at h
    · exact absurd h (by simp)
    · simp at h
      exact Or.inl h.symm
  · simp at h
    exact Or.inr h.symm

theorem copyNonoverlapping_err {st : List (Option T)} {src dst cnt : Nat} {e : Err}
    (h : copyNonoverlapping st src dst cnt = .error e) :
    e = .oobWrite ∨ e = .overlap ∨ e = .uninitRead ∨ e = .oobRead := by
  unfold copyNonoverlapping at h
  split at h
  · split at h
    · split at h
      · exact absurd h (by simp)
      · rename_i heq
        simp at h
        rcases readInit_err heq with h2 | h2 <;> simp [← h, h2]
    · simp at h
      simp [← h]
  · simp at h
    simp [← h]

theorem copySliceIn_err {st : List (Option T)} {dst : Nat} {src : List T} {e : Err}
    (h : copySliceIn st dst src = .error e) : e = .oobWrite := by
  unfold copySliceIn at h
  split at h
  · exact absurd h (by simp)
  · simp at h
    exact h.symm

theorem readInit_ok_char {st : List (Option T)} {src cnt : Nat} {vals : List T}
    (h : readInit st src cnt = .ok vals) :
    vals.length = cnt ∧ src + cnt ≤ st.length := by
  unfold readInit at h
  split at h
  · rename_i hb
    split at h
    · rename_i vals2 hseq
      simp at h
      subst h
      have := seqOpt_eq_some hseq
      have hlen := congrArg List.length this
      rw [length_segment hb] at hlen
      simp at hlen
      exact ⟨hlen.symm, hb⟩
    · exact absurd h (by simp)
  · exact absurd h (by simp)

theorem copyNonoverlapping_ok_char {st st2 : List (Option T)} {src dst cnt : Nat}
    (h : copyNonoverlapping st src dst cnt = .ok st2) :
    st2.length = st.length ∧ ∀ j, j ≤ dst → j ≤ st.length → st2.take j = st.take j := by
  unfold copyNonoverlapping at h
  split at h
  · rename_i hb
    split at h
    · split at h
      · rename_i vals hread
        simp at h
        obtain ⟨hlen, _⟩ := readInit_ok_char hread
        subst h
        constructor
        · exact length_writeAt (by omega)
        · intro j hj1 hj2
          exact take_writeAt hj1 hj2
      · exact absurd h (by simp)
    · exact absurd h (by simp)
  · exact absurd h (by simp)

/-- Errors escaping the doubling loop come from a copy, and the state carried
out keeps its length and any prefix below the fill pointer. -/
theorem doublingLoop_char (bs : Nat) (m : Nat) :
    ∀ (st : List (Option T)) (bf cs : Nat) (log : List CopyEvent),
    (∀ st' bf' cs' log', doublingLoop bs m st bf cs log = .ok (st', bf', cs', log') →
      st'.length = st.length ∧ bf ≤ bf' ∧
      ∀ j, j ≤ bf → j ≤ st.length → st'.take j = st.take j) ∧
    (∀ e st' log', doublingLoop bs m st bf cs log = .error (e, st', log') →
      (e = .oobWrite ∨ e = .overlap ∨ e = .uninitRead ∨ e = .oobRead) ∧
      st'.length = st.length ∧ ∀ j, j ≤ bf → j ≤ st.length → st'.take j = st.take j) := by
  induction m using Nat.strong_induction_on with
  | _ m ih =>
    intro st bf cs log
    by_cases hm : m = 0
    · subst hm
      constructor
      · intro st' bf' cs' log' h
        rw [doublingLoop] at h
        simp at h
        obtain ⟨h1, h2, _, _⟩ := h
        subst h1
        subst h2
        exact ⟨rfl, Nat.le_refl _, fun j _ _ => rfl⟩
      · intro e st' log' h
        rw [doublingLoop] at h
        simp at h
    · constructor
      · intro st' bf' cs' log' h
        rw [doublingLoop, dif_neg hm] at h
        cases hcopy : copyNonoverlapping st bs bf cs with
        | error e =>
          rw [hcopy] at h
          simp at h
        | ok st1 =>
          rw [hcopy] at h
          obtain ⟨hl1, hf1⟩ := copyNonoverlapping_ok_char hcopy
          obtain ⟨hok, _⟩ := ih (m / 2) (by omega) st1 (bf + cs) (cs * 2)
            (log ++ [⟨bs, bf, cs, bf⟩])
          obtain ⟨hl2, hbf2, hf2⟩ := hok st' bf' cs' log' h
          refine ⟨by omega, by omega, fun j hj1 hj2 => ?_⟩
          rw [hf2 j (by omega) (by omega), hf1 j hj1 hj2]
      · intro e st' log' h
        rw [doublingLoop, dif_neg hm] at h
        cases hcopy : copyNonoverlapping st bs bf cs with
        | error e2 =>
          rw [hcopy] at h
          simp at h
          obtain ⟨he, hst, _⟩ := h
          subst he
          subst hst
          exact ⟨copyNonoverlapping_err hcopy, rfl, fun j _ _ => rfl⟩
        | ok st1 =>
          rw [hcopy] at h
          obtain ⟨hl1, hf1⟩ := copyNonoverlapping_ok_char hcopy
          obtain ⟨_, herr⟩ := ih (m / 2) (by omega) st1 (bf + cs) (cs * 2)
            (log ++ [⟨bs, bf, cs, bf⟩])
          obtain ⟨hcls, hl2, hf2⟩ := herr e st' log' h
          refine ⟨hcls, by omega, fun j hj1 hj2 => ?_⟩
          rw [hf2 j (by omega) (by omega), hf1 j hj1 hj2]

theorem copySliceIn_ok_char {st st2 : List (Option T)} {dst : Nat} {src : List T}
    (h : copySliceIn st dst src = .ok st2) :
    st2 = writeAt st dst src ∧ dst + src.length ≤ st.length := by
  unfold copySliceIn at h
  split at h
  · simp at h
    exact ⟨h.symm, by assumption⟩
  · exact absurd h (by simp)

theorem additional_cap_ok_char {v : FCVec T} {c : Nat}
    (h : v.additional_cap = .ok c) :
    v.buffer.len ≤ v.max_len ∧ c = v.max_len - v.buffer.len := by
  unfold FCVec.additional_cap checkedSub at h
  split at h
  · simp at h
    exact ⟨by assumption, h.symm⟩
  · exact absurd h (by simp)

theorem additional_cap_err_char {v : FCVec T} {e : Err}
    (h : v.additional_cap = .error e) : e = .subOverflow := checkedSub_err h

/-- Frame property of `extend_with_repeat` for every outcome: the cursor
fields are preserved, the length never decreases (and stays at most
`max_len` on success), the allocation size is unchanged, and every cell
below the length at entry is untouched. -/
theorem extend_with_repeat_frame (v : FCVec T) (s : List T) (n : Nat)
    (j : Nat) (hj1 : j ≤ v.buffer.len) (hj2 : j ≤ v.buffer.store.length) :
    (∀ v' log, v.extend_with_repeat s n = .ok (v', log) →
      v'.start = v.start ∧ v'.max_len = v.max_len ∧
      v.buffer.len ≤ v'.buffer.len ∧ v'.buffer.len ≤ v.max_len ∧
      v'.buffer.store.length = v.buffer.store.length ∧
      v'.buffer.store.take j = v.buffer.store.take j) ∧
    (∀ e v' log, v.extend_with_repeat s n = .error (e, v', log) →
      v'.start = v.start ∧ v'.max_len = v.max_len ∧
      v'.buffer.len = v.buffer.len ∧
      v'.buffer.store.length = v.buffer.store.length ∧
      v'.buffer.store.take j = v.buffer.store.take j) := by
  by_cases hU : s.length * n < USIZE
  case neg =>
    constructor
    · intro v' log h
      simp only [FCVec.extend_with_repeat, if_neg hU] at h
      simp at h
    · intro e v' log h
      simp only [FCVec.extend_with_repeat, if_neg hU] at h
      simp at h
      obtain ⟨_, h2, _⟩ := h
      subst h2
      exact ⟨rfl, rfl, rfl, rfl, rfl⟩
  case pos =>
  cases hA : v.additional_cap with
  | error e2 =>
    constructor
    · intro v' log h
      simp only [FCVec.extend_with_repeat, if_pos hU, hA] at h
      simp at h
    · intro e v' log h
      simp only [FCVec.extend_with_repeat, if_pos hU, hA] at h
      simp at h
      obtain ⟨_, h2, _⟩ := h
      subst h2
      exact ⟨rfl, rfl, rfl, rfl, rfl⟩
  | ok c =>
  obtain ⟨hlm, hc⟩ := additional_cap_ok_char hA
  by_cases hC : s.length * n ≤ c
  case neg =>
    constructor
    · intro v' log h
      simp only [FCVec.extend_with_repeat, if_pos hU, hA, if_neg hC] at h
      simp at h
    · intro e v' log h
      simp only [FCVec.extend_with_repeat, if_pos hU, hA, if_neg hC] at h
      simp at h
      obtain ⟨_, h2, _⟩ := h
      subst h2
      exact ⟨rfl, rfl, rfl, rfl, rfl⟩
  case pos =>
  cases hcs : copySliceIn v.buffer.store v.buffer.len s with
  | error e2 =>
    constructor
    · intro v' log h
      simp only [FCVec.extend_with_repeat, if_pos hU, hA, if_pos hC, hcs] at h
      simp at h
    · intro e v' log h
      simp only [FCVec.extend_with_repeat, if_pos hU, hA, if_pos hC, hcs] at h
      simp at h
      obtain ⟨_, h2, _⟩ := h
      subst h2
      exact ⟨rfl, rfl, rfl, rfl, rfl⟩
  | ok st0 =>
  obtain ⟨hst0, hb0⟩ := copySliceIn_ok_char hcs
  have hst0len : st0.length = v.buffer.store.length := by
    rw [hst0]
    exact length_writeAt hb0
  have hst0take : st0.take j = v.buffer.store.take j := by
    rw [hst0]
    exact take_writeAt hj1 hj2
  obtain ⟨hloopok, hlooperr⟩ :=
    doublingLoop_char v.buffer.len (n / 2) st0 (v.buffer.len + s.length) s.length []
  cases hloop : doublingLoop v.buffer.len (n / 2) st0 (v.buffer.len + s.length)
      s.length [] with
  | error res =>
    obtain ⟨e2, st1, log1⟩ := res
    obtain ⟨_, hl1, hf1⟩ := hlooperr e2 st1 log1 hloop
    constructor
    · intro v' log h
      simp only [FCVec.extend_with_repeat, if_pos hU, hA, if_pos hC, hcs, hloop] at h
      simp at h
    · intro e v' log h
      simp only [FCVec.extend_with_repeat, if_pos hU, hA, if_pos hC, hcs, hloop] at h
      simp at h
      obtain ⟨_, h2, _⟩ := h
      subst h2
      refine ⟨rfl, rfl, rfl, by simp; omega, ?_⟩
      show st1.take j = _
      rw [hf1 j (by omega) (by omega), hst0take]
  | ok res =>
    obtain ⟨st1, bf1, cs1, log1⟩ := res
    obtain ⟨hl1, hbf1, hf1⟩ := hloopok st1 bf1 cs1 log1 hloop
    have hst1take : st1.take j = v.buffer.store.take j := by
      rw [hf1 j (by omega) (by omega), hst0take]
    cases hsub : checkedSub (s.length * n) cs1 with
    | error e2 =>
      constructor
      · intro v' log h
        simp only [FCVec.extend_with_repeat, if_pos hU, hA, if_pos hC, hcs, hloop, hsub] at h
        simp at h
      · intro e v' log h
        simp only [FCVec.extend_with_repeat, if_pos hU, hA, if_pos hC, hcs, hloop, hsub] at h
        simp at h
        obtain ⟨_, h2, _⟩ := h
        subst h2
        exact ⟨rfl, rfl, rfl, by simp; omega, hst1take⟩
    | ok rem =>
      by_cases hrem : 0 < rem
      case neg =>
        constructor
        · intro v' log h
          simp only [FCVec.extend_with_repeat, if_pos hU, hA, if_pos hC, hcs, hloop, hsub, if_neg hrem] at h
          simp at h
          obtain ⟨h2, _⟩ := h
          subst h2
          refine ⟨rfl, rfl, by simp, by simp; omega, by simp; omega, hst1take⟩
        · intro e v' log h
          simp only [FCVec.extend_with_repeat, if_pos hU, hA, if_pos hC, hcs, hloop, hsub, if_neg hrem] at h
          simp at h
      case pos =>
        cases hc2 : copyNonoverlapping st1 v.buffer.len bf1 rem with
        | error e2 =>
          constructor
          · intro v' log h
            simp only [FCVec.extend_with_repeat, if_pos hU, hA, if_pos hC, hcs, hloop, hsub, if_pos hrem, hc2] at h
            simp at h
          · intro e v' log h
            simp only [FCVec.extend_with_repeat, if_pos hU, hA, if_pos hC, hcs, hloop, hsub, if_pos hrem, hc2] at h
            simp at h
            obtain ⟨_, h2, _⟩ := h
            subst h2
            exact ⟨rfl, rfl, rfl, by simp; omega, hst1take⟩
        | ok st2 =>
          obtain ⟨hl2, hf2⟩ := copyNonoverlapping_ok_char hc2
          constructor
          · intro v' log h
            simp only [FCVec.extend_with_repeat, if_pos hU, hA, if_pos hC, hcs, hloop, hsub, if_pos hrem, hc2] at h
            simp at h
            obtain ⟨h2, _⟩ := h
            subst h2
            refine ⟨rfl, rfl, by simp, by simp; omega, by simp; omega, ?_⟩
            show st2.take j = _
            rw [hf2 j (by omega) (by omega), hst1take]
          · intro e v' log h
            simp only [FCVec.extend_with_repeat, if_pos hU, hA, if_pos hC, hcs, hloop, hsub, if_pos hrem, hc2] at h
            simp at h

end ErrChar

section OpFrames

variable {T : Type}

theorem push_ok_char {v : FCVec T} (x : T) (h : v.buffer.len < v.max_len)
    (h3 : v.max_len ≤ v.buffer.store.length) :
    v.push x = .ok ⟨⟨writeAt v.buffer.store v.buffer.len [x], v.buffer.len + 1⟩,
      v.start, v.max_len⟩ := by
  unfold FCVec.push
  have hA : v.additional_cap = .ok (v.max_len - v.buffer.len) := by
    unfold FCVec.additional_cap checkedSub
    rw [if_pos (by omega)]
  simp only [hA]
  rw [if_pos (by omega), if_pos (by omega)]

theorem push_fail {v : FCVec T} (x : T) (h : v.buffer.len = v.max_len) :
    v.push x = .error (.assertCap, v) := by
  unfold FCVec.push
  have hA : v.additional_cap = .ok 0 := by
    unfold FCVec.additional_cap checkedSub
    rw [if_pos (by omega)]
    simp [h]
  simp only [hA]
  rw [if_neg (by omega)]

theorem extend_from_slice_ok_char {v : FCVec T} (other : List T)
    (hfit : other.length ≤ v.max_len - v.buffer.len)
    (h2 : v.buffer.len ≤ v.max_len) (h3 : v.max_len ≤ v.buffer.store.length) :
    v.extend_from_slice other =
      .ok ⟨⟨writeAt v.buffer.store v.buffer.len other, v.buffer.len + other.length⟩,
        v.start, v.max_len⟩ := by
  unfold FCVec.extend_from_slice
  have hA : v.additional_cap = .ok (v.max_len - v.buffer.len) := by
    unfold FCVec.additional_cap checkedSub
    rw [if_pos (by omega)]
  simp only [hA]
  rw [if_pos hfit]
  have hcs : copySliceIn v.buffer.store v.buffer.len other =
      .ok (writeAt v.buffer.store v.buffer.len other) := by
    unfold copySliceIn
    rw [if_pos (by omega)]
  simp only [hcs]

theorem extend_from_slice_fail {v : FCVec T} (other : List T)
    (h2 : v.buffer.len ≤ v.max_len)
    (hbig : v.max_len - v.buffer.len < other.length) :
    v.extend_from_slice other = .error (.assertCap, v) := by
  unfold FCVec.extend_from_slice
  have hA : v.additional_cap = .ok (v.max_len - v.buffer.len) := by
    unfold FCVec.additional_cap checkedSub
    rw [if_pos (by omega)]
  simp only [hA]
  rw [if_neg (by omega)]

theorem push_frame (v : FCVec T) (x : T) (j : Nat) (hInv : Inv v)
    (hj : j ≤ v.buffer.len) :
    Inv (outState (v.push x)) ∧
    v.buffer.len ≤ (outState (v.push x)).buffer.len ∧
    (outState (v.push x)).start = v.start ∧
    (outState (v.push x)).max_len = v.max_len ∧
    v.buffer.store.length ≤ (outState (v.push x)).buffer.store.length ∧
    (outState (v.push x)).buffer.store.take j = v.buffer.store.take j := by
  obtain ⟨hi1, hi2, hi3⟩ := hInv
  by_cases h : v.buffer.len < v.max_len
  · rw [push_ok_char x h hi3]
    simp only [outState]
    have hlen : (writeAt v.buffer.store v.buffer.len [x]).length
        = v.buffer.store.length := length_writeAt (by simp; omega)
    refine ⟨⟨by simp; omega, by simp; omega, by simp [hlen]; omega⟩,
      by simp, by trivial, by trivial, by simp [hlen], ?_⟩
    show (writeAt v.buffer.store v.buffer.len [x]).take j = _
    exact take_writeAt hj (by omega)
  · rw [push_fail x (by omega)]
    simp only [outState]
    exact ⟨⟨hi1, hi2, hi3⟩, Nat.le_refl _, by trivial, by trivial, Nat.le_refl _, by trivial⟩

theorem extend_from_slice_frame (v : FCVec T) (other : List T) (j : Nat)
    (hInv : Inv v) (hj : j ≤ v.buffer.len) :
    Inv (outState (v.extend_from_slice other)) ∧
    v.buffer.len ≤ (outState (v.extend_from_slice other)).buffer.len ∧
    (outState (v.extend_from_slice other)).start = v.start ∧
    (outState (v.extend_from_slice other)).max_len = v.max_len ∧
    v.buffer.store.length ≤ (outState (v.extend_from_slice other)).buffer.store.length ∧
    (outState (v.extend_from_slice other)).buffer.store.take j
      = v.buffer.store.take j := by
  obtain ⟨hi1, hi2, hi3⟩ := hInv
  by_cases h : other.length ≤ v.max_len - v.buffer.len
  · rw [extend_from_slice_ok_char other h hi2 hi3]
    simp only [outState]
    have hlen : (writeAt v.buffer.store v.buffer.len other).length
        = v.buffer.store.length := length_writeAt (by omega)
    refine ⟨⟨by simp; omega, by simp; omega, by simp [hlen]; omega⟩,
      by simp, by trivial, by trivial, by simp [hlen], ?_⟩
    show (writeAt v.buffer.store v.buffer.len other).take j = _
    exact take_writeAt hj (by omega)
  · rw [extend_from_slice_fail other hi2 (by omega)]
    simp only [outState]
    exact ⟨⟨hi1, hi2, hi3⟩, Nat.le_refl _, by trivial, by trivial, Nat.le_refl _, by trivial⟩

theorem extendIter_frame (l : List T) : ∀ (v : FCVec T) (j : Nat), Inv v →
    j ≤ v.buffer.len →
    Inv (outState (v.extendIter l)) ∧
    v.buffer.len ≤ (outState (v.extendIter l)).buffer.len ∧
    (outState (v.extendIter l)).start = v.start ∧
    (outState (v.extendIter l)).max_len = v.max_len ∧
    v.buffer.store.length ≤ (outState (v.extendIter l)).buffer.store.length ∧
    (outState (v.extendIter l)).buffer.store.take j = v.buffer.store.take j := by
  induction l with
  | nil =>
    intro v j hInv hj
    unfold FCVec.extendIter
    simp only [outState]
    exact ⟨hInv, Nat.le_refl _, by trivial, by trivial, Nat.le_refl _, by trivial⟩
  | cons x rest ih =>
    intro v j hInv hj
    obtain ⟨hp1, hp2, hp3, hp4, hp5, hp6⟩ := push_frame v x j hInv hj
    cases hpush : v.push x with
    | error e =>
      obtain ⟨e1, v1⟩ := e
      have hstep : v.extendIter (x :: rest) = .error (e1, v1) := by
        show (match v.push x with
          | .ok v1 => v1.extendIter rest
          | .error e => .error e) = .error (e1, v1)
        rw [hpush]
      rw [hpush] at hp1 hp2 hp3 hp4 hp5 hp6
      simp only [outState] at hp1 hp2 hp3 hp4 hp5 hp6
      rw [hstep]
      simp only [outState]
      exact ⟨hp1, hp2, hp3, hp4, hp5, hp6⟩
    | ok v1 =>
      have hstep : v.extendIter (x :: rest) = v1.extendIter rest := by
        show (match v.push x with
          | .ok v1 => v1.extendIter rest
          | .error e => .error e) = v1.extendIter rest
        rw [hpush]
      rw [hpush] at hp1 hp2 hp3 hp4 hp5 hp6
      simp only [outState] at hp1 hp2 hp3 hp4 hp5 hp6
      rw [hstep]
      obtain ⟨hq1, hq2, hq3, hq4, hq5, hq6⟩ := ih v1 j hp1 (by omega)
      exact ⟨hq1, by omega, by rw [hq3, hp3], by rw [hq4, hp4], by omega,
        by rw [hq6, hp6]⟩

theorem asMutWrite_frame (v : FCVec T) (i : Nat) (x : T) (j : Nat) (hInv : Inv v)
    (hj : j ≤ v.start) :
    Inv (outState (v.asMutWrite i x)) ∧
    v.buffer.len ≤ (outState (v.asMutWrite i x)).buffer.len ∧
    (outState (v.asMutWrite i x)).start = v.start ∧
    (outState (v.asMutWrite i x)).max_len = v.max_len ∧
    v.buffer.store.length ≤ (outState (v.asMutWrite i x)).buffer.store.length ∧
    (outState (v.asMutWrite i x)).buffer.store.take j = v.buffer.store.take j := by
  obtain ⟨hi1, hi2, hi3⟩ := hInv
  unfold FCVec.asMutWrite
  rw [if_pos hi1]
  by_cases h2 : v.start + i < v.buffer.len
  · rw [if_pos h2]
    simp only [outState]
    have hlen : (writeAt v.buffer.store (v.start + i) [x]).length
        = v.buffer.store.length := length_writeAt (by simp; omega)
    refine ⟨⟨by simp; omega, by simp; omega, by simp [hlen]; omega⟩,
      by simp, by trivial, by trivial, by simp [hlen], ?_⟩
    show (writeAt v.buffer.store (v.start + i) [x]).take j = _
    exact take_writeAt (by omega) (by omega)
  · rw [if_neg h2]
    simp only [outState]
    exact ⟨⟨hi1, hi2, hi3⟩, Nat.le_refl _, by trivial, by trivial, Nat.le_refl _, by trivial⟩

/-- Frame property of a single cursor operation: the cursor invariant is
preserved, the length never decreases, `start` and `max_len` are constant,
the allocation never shrinks, and any prefix below the entry length is
untouched — except that a write through `DerefMut`/`AsMut` may rewrite
cells of the write region, so for `asMutWrite` the preserved prefix is the
read region. -/
theorem step_frame (v : FCVec T) (op : Op T) (j : Nat) (hInv : Inv v)
    (hj : j ≤ v.buffer.len)
    (hop : j ≤ v.start ∨ ∀ i x, op ≠ Op.asMutWrite i x) :
    Inv (outState (step v op)) ∧
    v.buffer.len ≤ (outState (step v op)).buffer.len ∧
    (outState (step v op)).start = v.start ∧
    (outState (step v op)).max_len = v.max_len ∧
    v.buffer.store.length ≤ (outState (step v op)).buffer.store.length ∧
    (outState (step v op)).buffer.store.take j = v.buffer.store.take j := by
  obtain ⟨hi1, hi2, hi3⟩ := hInv
  cases op with
  | push x => exact push_frame v x j ⟨hi1, hi2, hi3⟩ hj
  | extendFromSlice l => exact extend_from_slice_frame v l j ⟨hi1, hi2, hi3⟩ hj
  | extendIter l => exact extendIter_frame l v j ⟨hi1, hi2, hi3⟩ hj
  | asMutWrite i x =>
    rcases hop with hop | hop
    · exact asMutWrite_frame v i x j ⟨hi1, hi2, hi3⟩ hop
    · exact absurd rfl (hop i x)
  | extendWithRepeat l n =>
    obtain ⟨hok, herr⟩ := extend_with_repeat_frame v l n j hj (by omega)
    simp only [step]
    cases hrun : v.extend_with_repeat l n with
    | ok res =>
      obtain ⟨v1, log⟩ := res
      obtain ⟨hq1, hq2, hq3, hq4, hq5, hq6⟩ := hok v1 log hrun
      simp only [outState]
      exact ⟨⟨by omega, by omega, by omega⟩, hq3, hq1, hq2, by omega, hq6⟩
    | error res =>
      obtain ⟨e, v1, log⟩ := res
      obtain ⟨hq1, hq2, hq3, hq4, hq5⟩ := herr e v1 log hrun
      simp only [outState]
      exact ⟨⟨by omega, by omega, by omega⟩, by omega, hq1, hq2, by omega, hq5⟩

/-- Frame property of a whole operation sequence. -/
theorem runOps_frame (ops : List (Op T)) : ∀ (v : FCVec T) (j : Nat), Inv v →
    j ≤ v.buffer.len →
    (j ≤ v.start ∨ ∀ i x, Op.asMutWrite i x ∉ ops) →
    Inv (outState (runOps v ops)) ∧
    v.buffer.len ≤ (outState (runOps v ops)).buffer.len ∧
    (outState (runOps v ops)).start = v.start ∧
    (outState (runOps v ops)).max_len = v.max_len ∧
    v.buffer.store.length ≤ (outState (runOps v ops)).buffer.store.length ∧
    (outState (runOps v ops)).buffer.store.take j = v.buffer.store.take j := by
  induction ops with
  | nil =>
    intro v j hInv hj _
    unfold runOps
    simp only [outState]
    exact ⟨hInv, Nat.le_refl _, by trivial, by trivial, Nat.le_refl _, by trivial⟩
  | cons op rest ih =>
    intro v j hInv hj hcond
    have hcondop : j ≤ v.start ∨ ∀ i x, op ≠ Op.asMutWrite i x := by
      rcases hcond with hc | hc
      · exact Or.inl hc
      · right
        intro i x hei
        exact hc i x (by rw [← hei]; exact List.mem_cons_self op rest)
    obtain ⟨hp1, hp2, hp3, hp4, hp5, hp6⟩ := step_frame v op j hInv hj hcondop
    cases hstep : step v op with
    | error e =>
      obtain ⟨e1, v1⟩ := e
      have hrun2 : runOps v (op :: rest) = .error (e1, v1) := by
        show (match step v op with
          | .ok v1 => runOps v1 rest
          | .error e => .error e) = .error (e1, v1)
        rw [hstep]
      rw [hstep] at hp1 hp2 hp3 hp4 hp5 hp6
      simp only [outState] at hp1 hp2 hp3 hp4 hp5 hp6
      rw [hrun2]
      simp only [outState]
      exact ⟨hp1, hp2, hp3, hp4, hp5, hp6⟩
    | ok v1 =>
      have hrun2 : runOps v (op :: rest) = runOps v1 rest := by
        show (match step v op with
          | .ok v1 => runOps v1 rest
          | .error e => .error e) = runOps v1 rest
        rw [hstep]
      rw [hstep] at hp1 hp2 hp3 hp4 hp5 hp6
      simp only [outState] at hp1 hp2 hp3 hp4 hp5 hp6
      rw [hrun2]
      have hcondrest : j ≤ v1.start ∨ ∀ i x, Op.asMutWrite i x ∉ rest := by
        rcases hcond with hc | hc
        · exact Or.inl (by omega)
        · exact Or.inr fun i x hmem => hc i x (List.mem_cons_of_mem op hmem)
      obtain ⟨hq1, hq2, hq3, hq4, hq5, hq6⟩ := ih v1 j hp1 (by omega) hcondrest
      exact ⟨hq1, by omega, by rw [hq3, hp3], by rw [hq4, hp4], by omega,
        by rw [hq6, hp6]⟩

end OpFrames

section SplitLemma

variable {T : Type}

/-- Successful split: for a well-formed vector whose allocation (or requested
extra capacity) is non-zero, `with_fixed_capacity` returns the initialized
prefix as the read view and a cursor with `start = len`,
`max_len = len + capacity`, over a storage of at least `max_len` slots whose
committed prefix is unchanged. -/
theorem with_fixed_capacity_ok (v : RustVec T) (capacity : Nat)
    (hwf : v.WF) (hpos : 0 < v.store.length ∨ 0 < capacity) :
    ∃ sl store1,
      v.with_fixed_capacity capacity =
        .ok (sl, ⟨⟨store1, v.len⟩, v.len, v.len + capacity⟩) ∧
      sl.map some = v.store.take v.len ∧
      sl.length = v.len ∧
      store1.take v.len = v.store.take v.len ∧
      v.len + capacity ≤ store1.length := by
  obtain ⟨hwf1, hwf2⟩ := hwf
  have h1 : (if v.store.length < v.len + capacity then
        v.store ++ List.replicate (v.len + capacity - v.store.length) none
      else v.store).take v.len = v.store.take v.len := by
    split
    · rw [List.take_append_of_le_length hwf1]
    · rfl
  have h2 : v.len + capacity ≤ (if v.store.length < v.len + capacity then
        v.store ++ List.replicate (v.len + capacity - v.store.length) none
      else v.store).length := by
    split
    · simp
      omega
    · omega
  have h3 : 0 < (if v.store.length < v.len + capacity then
        v.store ++ List.replicate (v.len + capacity - v.store.length) none
      else v.store).length := by
    split
    · simp
      omega
    · omega
  have hinit : ((if v.store.length < v.len + capacity then
        v.store ++ List.replicate (v.len + capacity - v.store.length) none
      else v.store).take v.len).all Option.isSome := by
    rw [h1]
    exact hwf2
  obtain ⟨sl, hsl, hmap, hlen⟩ := readInit_prefix (by omega) hinit
  have hsub : checkedSub (if v.store.length < v.len + capacity then
        v.store ++ List.replicate (v.len + capacity - v.store.length) none
      else v.store).length v.len =
      .ok ((if v.store.length < v.len + capacity then
        v.store ++ List.replicate (v.len + capacity - v.store.length) none
      else v.store).length - v.len) := by
    unfold checkedSub
    rw [if_pos (by omega)]
  have hcaple : capacity ≤ (if v.store.length < v.len + capacity then
        v.store ++ List.replicate (v.len + capacity - v.store.length) none
      else v.store).length - v.len := by omega
  refine ⟨sl, (if v.store.length < v.len + capacity then
        v.store ++ List.replicate (v.len + capacity - v.store.length) none
      else v.store),
    ?_, hmap.trans h1, hlen, h1, h2⟩
  simp only [RustVec.with_fixed_capacity, hsub, if_pos hcaple, if_pos h3, hsl]

end SplitLemma

section TraceN0

variable {T : Type}

/-- What really happens on `extend_with_repeat(slice, 0)` with a non-empty
slice: the precondition checks pass vacuously, the slice is copied once
into the spare region beyond `len` without any capacity justification
(undefined behaviour when the allocation is too small for it), and then
`rem_len = cap_needed - copy_size = 0 - slice.len()` underflows. -/
theorem extend_with_repeat_n0 (v : FCVec T) (s : List T)
    (h2 : v.buffer.len ≤ v.max_len) (hs : s ≠ []) :
    (v.buffer.len + s.length ≤ v.buffer.store.length →
      v.extend_with_repeat s 0 = .error (.subOverflow,
        ⟨⟨writeAt v.buffer.store v.buffer.len s, v.buffer.len⟩,
          v.start, v.max_len⟩, [])) ∧
    (v.buffer.store.length < v.buffer.len + s.length →
      v.extend_with_repeat s 0 = .error (.oobWrite, v, [])) := by
  have hU : s.length * 0 < USIZE := by
    simp [USIZE]
  have hac : v.additional_cap = .ok (v.max_len - v.buffer.len) := by
    unfold FCVec.additional_cap checkedSub
    rw [if_pos h2]
  have hspos : 0 < s.length := List.length_pos.mpr hs
  have hsubf : checkedSub (s.length * 0) s.length = .error .subOverflow := by
    unfold checkedSub
    rw [if_neg (by omega)]
  constructor
  · intro hb
    have hcopy : copySliceIn v.buffer.store v.buffer.len s =
        .ok (writeAt v.buffer.store v.buffer.len s) := by
      unfold copySliceIn
      rw [if_pos hb]
    have hloop : doublingLoop v.buffer.len (0 / 2)
        (writeAt v.buffer.store v.buffer.len s)
        (v.buffer.len + s.length) s.length [] =
        .ok (writeAt v.buffer.store v.buffer.len s,
          v.buffer.len + s.length, s.length, []) := by
      rw [doublingLoop, dif_pos (by norm_num)]
    simp only [FCVec.extend_with_repeat, if_pos hU, hac,
      if_pos (show s.length * 0 ≤ v.max_len - v.buffer.len by omega),
      hcopy, hloop, hsubf]
  · intro hb
    have hcopy : copySliceIn v.buffer.store v.buffer.len s =
        .error .oobWrite := by
      unfold copySliceIn
      rw [if_neg (by omega)]
    simp only [FCVec.extend_with_repeat, if_pos hU, hac,
      if_pos (show s.length * 0 ≤ v.max_len - v.buffer.len by omega),
      hcopy]

end TraceN0

section OverflowChar

variable {T : Type}

/-- The "capacity overflow" panic of `extend_with_repeat` fires exactly when
`slice.len() * n` is not representable as `usize`; it fires before anything
else, leaving the state untouched, and no other path raises it. -/
theorem extend_with_repeat_overflow_char (v : FCVec T) (s : List T) (n : Nat) :
    (USIZE ≤ s.length * n →
      v.extend_with_repeat s n = .error (.mulOverflow, v, [])) ∧
    (s.length * n < USIZE →
      ∀ e v' log, v.extend_with_repeat s n = .error (e, v', log) →
        e ≠ .mulOverflow) := by
  constructor
  · intro hge
    unfold FCVec.extend_with_repeat
    rw [if_neg (by omega)]
  · intro hlt e v' log h
    cases hA : v.additional_cap with
    | error e2 =>
      simp only [FCVec.extend_with_repeat, if_pos hlt, hA] at h
      simp at h
      obtain ⟨he, _⟩ := h
      subst he
      rw [additional_cap_err_char hA]
      simp
    | ok c =>
    by_cases hC : s.length * n ≤ c
    case neg =>
      simp only [FCVec.extend_with_repeat, if_pos hlt, hA, if_neg hC] at h
      simp at h
      obtain ⟨he, _⟩ := h
      subst he
      simp
    case pos =>
    cases hcs : copySliceIn v.buffer.store v.buffer.len s with
    | error e2 =>
      simp only [FCVec.extend_with_repeat, if_pos hlt, hA, if_pos hC, hcs] at h
      simp at h
      obtain ⟨he, _⟩ := h
      subst he
      rw [copySliceIn_err hcs]
      simp
    | ok st0 =>
    cases hloop : doublingLoop v.buffer.len (n / 2) st0 (v.buffer.len + s.length)
        s.length [] with
    | error res =>
      obtain ⟨e2, st1, log1⟩ := res
      simp only [FCVec.extend_with_repeat, if_pos hlt, hA, if_pos hC, hcs,
        hloop] at h
      simp at h
      obtain ⟨he, _⟩ := h
      subst he
      obtain ⟨_, herr⟩ := doublingLoop_char v.buffer.len (n / 2) st0
        (v.buffer.len + s.length) s.length []
      obtain ⟨hcls, _, _⟩ := herr e2 st1 log1 hloop
      rcases hcls with hc | hc | hc | hc <;> simp [hc]
    | ok res =>
    obtain ⟨st1, bf1, cs1, log1⟩ := res
    cases hsb : checkedSub (s.length * n) cs1 with
    | error e2 =>
      simp only [FCVec.extend_with_repeat, if_pos hlt, hA, if_pos hC, hcs,
        hloop, hsb] at h
      simp at h
      obtain ⟨he, _⟩ := h
      subst he
      rw [checkedSub_err hsb]
      simp
    | ok rem =>
    by_cases hrem : 0 < rem
    case neg =>
      simp only [FCVec.extend_with_repeat, if_pos hlt, hA, if_pos hC, hcs,
        hloop, hsb, if_neg hrem] at h
      simp at h
    case pos =>
    cases hc2 : copyNonoverlapping st1 v.buffer.len bf1 rem with
    | error e2 =>
      simp only [FCVec.extend_with_repeat, if_pos hlt, hA, if_pos hC, hcs,
        hloop, hsb, if_pos hrem, hc2] at h
      simp at h
      obtain ⟨he, _⟩ := h
      subst he
      rcases copyNonoverlapping_err hc2 with hc | hc | hc | hc <;> simp [hc]
    | ok st2 =>
      simp only [FCVec.extend_with_repeat, if_pos hlt, hA, if_pos hC, hcs,
        hloop, hsb, if_pos hrem, hc2] at h
      simp at h

end OverflowChar

section DecodeLemma

variable {T : Type}

/-- Reading inside `q` copies of `s` followed by a partial copy of length
`k` is reading `s` at the index modulo `s.length`. -/
theorem repeat_take_getElem (s : List T) (_hs : 0 < s.length) {k : Nat}
    (hk : k ≤ s.length) :
    ∀ (q : Nat) (i : Nat), i < s.length * q + k →
      (repeatN s q ++ s.take k)[i]? = s[i % s.length]? := by
  intro q
  induction q with
  | zero =>
    intro i hi
    simp only [repeatN, List.nil_append]
    rw [List.getElem?_take_of_lt (by omega : i < k),
      Nat.mod_eq_of_lt (by omega)]
  | succ q ih =>
    intro i hi
    rw [show repeatN s (q + 1) = s ++ repeatN s q from rfl, List.append_assoc]
    by_cases hcase : i < s.length
    · rw [List.getElem?_append_left hcase, Nat.mod_eq_of_lt hcase]
    · have hmul : s.length * (q + 1) = s.length * q + s.length := by ring
      rw [List.getElem?_append_right (by omega), ih (i - s.length) (by omega)]
      have hmod : (i - s.length) % s.length = i % s.length := by
        conv_rhs => rw [show i = i - s.length + s.length by omega]
        rw [Nat.add_mod_right]
      rw [hmod]

/-- `decode_rle_lib_optim` on well-formed input with `distance ≤ count`:
appends exactly `count` elements, and every appended element equals the
element `distance` positions before it. -/
theorem decode_rle_lib_optim_ok (buffer : RustVec T) (distance count : Nat)
    (hwf : buffer.WF) (hd1 : 0 < distance) (hd2 : distance ≤ buffer.len)
    (hdc : distance ≤ count) (hcU : count < USIZE) :
    ∃ buf',
      decode_rle_lib_optim buffer distance count = .ok buf' ∧
      buf'.len = buffer.len + count ∧
      ∀ i, i < count →
        buf'.store[buffer.len + i]? = buf'.store[buffer.len + i - distance]? := by
  have hwf1 := hwf.1
  obtain ⟨sl, store1, hwfc, hmap, hslen, htake1, hlen1⟩ :=
    with_fixed_capacity_ok buffer count hwf (Or.inl (by omega))
  have hsub1 : checkedSub sl.length distance = .ok (sl.length - distance) := by
    unfold checkedSub
    rw [if_pos (by omega)]
  have hslilen : (sl.drop (sl.length - distance)).length = distance := by
    rw [List.length_drop]
    omega
  have hne : ¬((sl.drop (sl.length - distance)).length = 0) := by omega
  have hq1 : 1 ≤ count / (sl.drop (sl.length - distance)).length := by
    rw [hslilen]
    exact Nat.div_pos hdc hd1
  have hprod_le : (sl.drop (sl.length - distance)).length *
      (count / (sl.drop (sl.length - distance)).length) ≤ count := by
    rw [hslilen]
    calc distance * (count / distance) = count / distance * distance := by ring
    _ ≤ count := Nat.div_mul_le_self count distance
  obtain ⟨logX, hrunX, _⟩ :=
    extend_with_repeat_ok ⟨⟨store1, buffer.len⟩, buffer.len, buffer.len + count⟩
      (sl.drop (sl.length - distance))
      (count / (sl.drop (sl.length - distance)).length)
      (by omega)
      (by show buffer.len ≤ buffer.len + count; omega)
      (by show buffer.len + count ≤ store1.length; omega)
      (by show _ ≤ buffer.len + count - buffer.len; omega)
      (Or.inl hq1)
  rw [show (⟨⟨store1, buffer.len⟩, buffer.len, buffer.len + count⟩ :
      FCVec T).buffer.store = store1 from rfl,
    show (⟨⟨store1, buffer.len⟩, buffer.len, buffer.len + count⟩ :
      FCVec T).buffer.len = buffer.len from rfl,
    show (⟨⟨store1, buffer.len⟩, buffer.len, buffer.len + count⟩ :
      FCVec T).start = buffer.len from rfl,
    show (⟨⟨store1, buffer.len⟩, buffer.len, buffer.len + count⟩ :
      FCVec T).max_len = buffer.len + count from rfl] at hrunX
  have hcur : (⟨⟨store1.take buffer.len ++
        (repeatN (sl.drop (sl.length - distance))
          (count / (sl.drop (sl.length - distance)).length)).map some ++
        store1.drop (buffer.len + (sl.drop (sl.length - distance)).length *
          (count / (sl.drop (sl.length - distance)).length)),
      buffer.len + (sl.drop (sl.length - distance)).length *
        (count / (sl.drop (sl.length - distance)).length)⟩,
      buffer.len, buffer.len + count⟩ : FCVec T).curLen =
      .ok ((sl.drop (sl.length - distance)).length *
        (count / (sl.drop (sl.length - distance)).length)) := by
    unfold FCVec.curLen checkedSub
    rw [if_pos (by show buffer.len ≤ buffer.len + _; omega)]
    congr 1
    show buffer.len + _ - buffer.len = _
    omega
  have hrmod : count - (sl.drop (sl.length - distance)).length *
      (count / (sl.drop (sl.length - distance)).length) = count % distance := by
    rw [hslilen]
    have := Nat.mod_add_div count distance
    omega
  have hmodlt : count % distance < distance := Nat.mod_lt count hd1
  have hsub2 : checkedSub count ((sl.drop (sl.length - distance)).length *
      (count / (sl.drop (sl.length - distance)).length)) =
      .ok (count - (sl.drop (sl.length - distance)).length *
        (count / (sl.drop (sl.length - distance)).length)) := by
    unfold checkedSub
    rw [if_pos hprod_le]
  have hrle : count - (sl.drop (sl.length - distance)).length *
      (count / (sl.drop (sl.length - distance)).length) ≤
      (sl.drop (sl.length - distance)).length := by omega
  have htklen : ((sl.drop (sl.length - distance)).take
      (count - (sl.drop (sl.length - distance)).length *
        (count / (sl.drop (sl.length - distance)).length))).length =
      count - (sl.drop (sl.length - distance)).length *
        (count / (sl.drop (sl.length - distance)).length) := by
    rw [List.length_take]
    omega
  have hLA : (store1.take buffer.len).length = buffer.len := by
    rw [List.length_take]
    omega
  have hLB : ((repeatN (sl.drop (sl.length - distance))
      (count / (sl.drop (sl.length - distance)).length)).map some).length =
      (sl.drop (sl.length - distance)).length *
        (count / (sl.drop (sl.length - distance)).length) := by
    rw [List.length_map, length_repeatN]
  have hlen2 : (store1.take buffer.len ++
      (repeatN (sl.drop (sl.length - distance))
        (count / (sl.drop (sl.length - distance)).length)).map some ++
      store1.drop (buffer.len + (sl.drop (sl.length - distance)).length *
        (count / (sl.drop (sl.length - distance)).length))).length
      = store1.length := by
    have hw : store1.take buffer.len ++
        (repeatN (sl.drop (sl.length - distance))
          (count / (sl.drop (sl.length - distance)).length)).map some ++
        store1.drop (buffer.len + (sl.drop (sl.length - distance)).length *
          (count / (sl.drop (sl.length - distance)).length)) =
        writeAt store1 buffer.len (repeatN (sl.drop (sl.length - distance))
          (count / (sl.drop (sl.length - distance)).length)) := by
      unfold writeAt
      rw [length_repeatN]
    rw [hw]
    exact length_writeAt (by rw [length_repeatN]; omega)
  have hefs := extend_from_slice_ok_char
    (v := ⟨⟨store1.take buffer.len ++
        (repeatN (sl.drop (sl.length - distance))
          (count / (sl.drop (sl.length - distance)).length)).map some ++
        store1.drop (buffer.len + (sl.drop (sl.length - distance)).length *
          (count / (sl.drop (sl.length - distance)).length)),
      buffer.len + (sl.drop (sl.length - distance)).length *
        (count / (sl.drop (sl.length - distance)).length)⟩,
      buffer.len, buffer.len + count⟩)
    ((sl.drop (sl.length - distance)).take
      (count - (sl.drop (sl.length - distance)).length *
        (count / (sl.drop (sl.length - distance)).length)))
    (by show _ ≤ buffer.len + count - (buffer.len + _); rw [htklen]; omega)
    (by show buffer.len + _ ≤ buffer.len + count; omega)
    (by show buffer.len + count ≤ _; rw [hlen2]; omega)
  rw [show (⟨⟨store1.take buffer.len ++
        (repeatN (sl.drop (sl.length - distance))
          (count / (sl.drop (sl.length - distance)).length)).map some ++
        store1.drop (buffer.len + (sl.drop (sl.length - distance)).length *
          (count / (sl.drop (sl.length - distance)).length)),
      buffer.len + (sl.drop (sl.length - distance)).length *
        (count / (sl.drop (sl.length - distance)).length)⟩,
      buffer.len, buffer.len + count⟩ : FCVec T).buffer.store = store1.take buffer.len ++
        (repeatN (sl.drop (sl.length - distance))
          (count / (sl.drop (sl.length - distance)).length)).map some ++
        store1.drop (buffer.len + (sl.drop (sl.length - distance)).length *
          (count / (sl.drop (sl.length - distance)).length)) from rfl,
    show (⟨⟨store1.take buffer.len ++
        (repeatN (sl.drop (sl.length - distance))
          (count / (sl.drop (sl.length - distance)).length)).map some ++
        store1.drop (buffer.len + (sl.drop (sl.length - distance)).length *
          (count / (sl.drop (sl.length - distance)).length)),
      buffer.len + (sl.drop (sl.length - distance)).length *
        (count / (sl.drop (sl.length - distance)).length)⟩,
      buffer.len, buffer.len + count⟩ : FCVec T).buffer.len =
        buffer.len + (sl.drop (sl.length - distance)).length *
          (count / (sl.drop (sl.length - distance)).length) from rfl,
    show (⟨⟨store1.take buffer.len ++
        (repeatN (sl.drop (sl.length - distance))
          (count / (sl.drop (sl.length - distance)).length)).map some ++
        store1.drop (buffer.len + (sl.drop (sl.length - distance)).length *
          (count / (sl.drop (sl.length - distance)).length)),
      buffer.len + (sl.drop (sl.length - distance)).length *
        (count / (sl.drop (sl.length - distance)).length)⟩,
      buffer.len, buffer.len + count⟩ : FCVec T).start = buffer.len from rfl,
    show (⟨⟨store1.take buffer.len ++
        (repeatN (sl.drop (sl.length - distance))
          (count / (sl.drop (sl.length - distance)).length)).map some ++
        store1.drop (buffer.len + (sl.drop (sl.length - distance)).length *
          (count / (sl.drop (sl.length - distance)).length)),
      buffer.len + (sl.drop (sl.length - distance)).length *
        (count / (sl.drop (sl.length - distance)).length)⟩,
      buffer.len, buffer.len + count⟩ : FCVec T).max_len = buffer.len + count
      from rfl] at hefs
  simp only [decode_rle_lib_optim, hwfc, hsub1, if_neg hne, hrunX, hcur, hsub2,
    if_pos hrle, hefs]
  refine ⟨_, rfl, ?_, ?_⟩
  · show buffer.len + _ + _ = buffer.len + count
    rw [htklen]
    omega
  · intro i hi
    set sli := sl.drop (sl.length - distance) with hsli
    set q := count / sli.length with hq
    set r := count - sli.length * q with hr
    show (writeAt (store1.take buffer.len ++ (repeatN sli q).map some ++
        store1.drop (buffer.len + sli.length * q))
        (buffer.len + sli.length * q) (sli.take r))[buffer.len + i]? =
      (writeAt (store1.take buffer.len ++ (repeatN sli q).map some ++
        store1.drop (buffer.len + sli.length * q))
        (buffer.len + sli.length * q) (sli.take r))[buffer.len + i - distance]?
    have htla : (store1.take buffer.len).length = buffer.len := by
      rw [List.length_take]
      omega
    have hstore3 : writeAt (store1.take buffer.len ++ (repeatN sli q).map some ++
        store1.drop (buffer.len + sli.length * q))
        (buffer.len + sli.length * q) (sli.take r) =
        store1.take buffer.len ++
          ((repeatN sli q ++ sli.take r).map some ++
            store1.drop (buffer.len + count)) := by
      unfold writeAt
      rw [htklen]
      have ht1 : (store1.take buffer.len ++ (repeatN sli q).map some ++
          store1.drop (buffer.len + sli.length * q)).take
            (buffer.len + sli.length * q) =
          store1.take buffer.len ++ (repeatN sli q).map some :=
        take_len_append (by simp [length_repeatN]; omega)
      have ht2 : (store1.take buffer.len ++ (repeatN sli q).map some ++
          store1.drop (buffer.len + sli.length * q)).drop
            (buffer.len + sli.length * q + r) =
          store1.drop (buffer.len + count) := by
        rw [drop_append_len r (by simp [length_repeatN]; omega), List.drop_drop]
        congr 1
        omega
      rw [ht1, ht2]
      simp only [List.append_assoc]
      congr 1
      rw [← List.append_assoc, ← List.map_append]
    rw [hstore3]
    have happ : ∀ m, m < count →
        (store1.take buffer.len ++
          ((repeatN sli q ++ sli.take r).map some ++
            store1.drop (buffer.len + count)))[buffer.len + m]? =
        (sli[m % distance]?).map some := by
      intro m hm
      rw [List.getElem?_append_right (by omega)]
      rw [show buffer.len + m - (store1.take buffer.len).length = m by omega]
      rw [List.getElem?_append_left (by simp [length_repeatN]; omega)]
      rw [List.getElem?_map]
      rw [repeat_take_getElem sli (by omega) (by omega) q m (by omega)]
      rw [hslilen]
    by_cases hcase : distance ≤ i
    · rw [happ i hi]
      rw [show buffer.len + i - distance = buffer.len + (i - distance) by omega]
      rw [happ (i - distance) (by omega)]
      have : (i - distance) % distance = i % distance := by
        conv_rhs => rw [show i = i - distance + distance by omega]
        rw [Nat.add_mod_right]
      rw [this]
    · rw [happ i hi]
      rw [List.getElem?_append_left (by omega)]
      rw [List.getElem?_take_of_lt (by omega : buffer.len + i - distance < buffer.len)]
      have hsteq : store1.take buffer.len = sl.map some := by
        rw [htake1, ← hmap]
      have hsl_at : store1[buffer.len + i - distance]? =
          (sl[buffer.len + i - distance]?).map some := by
        rw [← List.getElem?_take_of_lt
          (by omega : buffer.len + i - distance < buffer.len), hsteq,
          List.getElem?_map]
      rw [hsl_at]
      rw [Nat.mod_eq_of_lt (by omega)]
      rw [hsli, List.getElem?_drop]
      rw [show sl.length - distance + i = buffer.len + i - distance by omega]

end DecodeLemma

section MoreHelpers

variable {T : Type}

theorem checkedSub_ok_char {a b c : Nat} (h : checkedSub a b = .ok c) :
    b ≤ a ∧ c = a - b := by
  unfold checkedSub at h
  split at h
  · simp at h
    exact ⟨by assumption, h.symm⟩
  · exact absurd h (by simp)

/-- `extend_with_repeat` fails on the capacity assert, before touching
anything, when the total does not fit the remaining capacity. -/
theorem extend_with_repeat_capfail {v : FCVec T} {s : List T} {n : Nat}
    (hU : s.length * n < USIZE) (h2 : v.buffer.len ≤ v.max_len)
    (hbig : v.max_len - v.buffer.len < s.length * n) :
    v.extend_with_repeat s n = .error (.assertCap, v, []) := by
  have hac : v.additional_cap = .ok (v.max_len - v.buffer.len) := by
    unfold FCVec.additional_cap checkedSub
    rw [if_pos h2]
  simp only [FCVec.extend_with_repeat, if_pos hU, hac, if_neg (by omega :
    ¬s.length * n ≤ v.max_len - v.buffer.len)]

/-- Any cursor returned by `with_fixed_capacity` starts with
`start = Buffer.length ≤ max_len` and a large-enough allocation. -/
theorem with_fixed_capacity_cursor {v : RustVec T} {cap : Nat} {sl : List T}
    {fc : FCVec T} (h : v.with_fixed_capacity cap = .ok (sl, fc)) :
    fc.start = v.len ∧ fc.buffer.len = v.len ∧ fc.max_len = v.len + cap ∧
    fc.max_len ≤ fc.buffer.store.length := by
  simp only [RustVec.with_fixed_capacity] at h
  cases hcs : checkedSub (if v.store.length < v.len + cap then
      v.store ++ List.replicate (v.len + cap - v.store.length) none
    else v.store).length v.len with
  | error e =>
    simp only [hcs] at h
    exact absurd h (by simp)
  | ok slack =>
    simp only [hcs] at h
    by_cases hcap2 : cap ≤ slack
    case neg =>
      rw [if_neg hcap2] at h
      exact absurd h (by simp)
    case pos =>
      rw [if_pos hcap2] at h
      by_cases hpos : 0 < (if v.store.length < v.len + cap then
          v.store ++ List.replicate (v.len + cap - v.store.length) none
        else v.store).length
      case neg =>
        rw [if_neg hpos] at h
        exact absurd h (by simp)
      case pos =>
        rw [if_pos hpos] at h
        cases hread : readInit (if v.store.length < v.len + cap then
            v.store ++ List.replicate (v.len + cap - v.store.length) none
          else v.store) 0 v.len with
        | error e =>
          simp only [hread] at h
          exact absurd h (by simp)
        | ok init =>
          simp only [hread] at h
          simp at h
          obtain ⟨_, h2⟩ := h
          subst h2
          obtain ⟨hle, hsl⟩ := checkedSub_ok_char hcs
          refine ⟨rfl, rfl, rfl, ?_⟩
          show v.len + cap ≤ (if v.store.length < v.len + cap then
              v.store ++ List.replicate (v.len + cap - v.store.length) none
            else v.store).length
          omega

end MoreHelpers

section Claims

/-- **C1** (amended: excluding `n = 0` with a non-empty slice, the case
recorded by `claim_C1_counterexample`): for every `Copy` element type,
cursor, slice `s` and count `n` with `s.len() * n` representable and at
most the remaining capacity, `extend_with_repeat s n` succeeds, advances
the buffer length by exactly `s.len() * n`, and the appended region equals
`n` back-to-back copies of `s`; nothing else changes — functionally the
same as `n` calls of `extend_from_slice s`. -/
theorem claim_C1_extend_with_repeat_appends {T : Type} (v : FCVec T)
    (s : List T) (n : Nat)
    (h1 : s.length * n < USIZE)
    (h2 : v.buffer.len ≤ v.max_len)
    (h3 : v.max_len ≤ v.buffer.store.length)
    (h4 : s.length * n ≤ v.max_len - v.buffer.len)
    (h5 : 1 ≤ n ∨ s = []) :
    ∃ v' log,
      v.extend_with_repeat s n = .ok (v', log) ∧
      v'.buffer.len = v.buffer.len + s.length * n ∧
      segment v'.buffer.store v.buffer.len (s.length * n) = (repeatN s n).map some ∧
      v'.buffer.store.take v.buffer.len = v.buffer.store.take v.buffer.len ∧
      v'.buffer.store.drop (v.buffer.len + s.length * n) =
        v.buffer.store.drop (v.buffer.len + s.length * n) ∧
      v'.start = v.start ∧ v'.max_len = v.max_len := by
  obtain ⟨log, hrun, _⟩ := extend_with_repeat_ok v s n h1 h2 h3 h4 h5
  have hA : (v.buffer.store.take v.buffer.len).length = v.buffer.len := by
    rw [List.length_take]
    omega
  have hB : ((repeatN s n).map (some : T → Option T)).length = s.length * n := by
    rw [List.length_map, length_repeatN]
  refine ⟨_, log, hrun, rfl, ?_, ?_, ?_, rfl, rfl⟩
  · show segment (v.buffer.store.take v.buffer.len ++ (repeatN s n).map some ++
      v.buffer.store.drop (v.buffer.len + s.length * n)) v.buffer.len
      (s.length * n) = (repeatN s n).map some
    unfold segment
    rw [List.append_assoc, drop_len_append hA, take_len_append hB]
  · show (v.buffer.store.take v.buffer.len ++ (repeatN s n).map some ++
      v.buffer.store.drop (v.buffer.len + s.length * n)).take v.buffer.len =
      v.buffer.store.take v.buffer.len
    rw [List.append_assoc, take_len_append hA]
  · show (v.buffer.store.take v.buffer.len ++ (repeatN s n).map some ++
      v.buffer.store.drop (v.buffer.len + s.length * n)).drop
        (v.buffer.len + s.length * n) =
      v.buffer.store.drop (v.buffer.len + s.length * n)
    exact drop_len_append (by rw [List.length_append, hA, hB])

/-- **C1, counterexample**: at `slice = [5]`, `n = 0` — an input satisfying
every precondition of the claim (`1 * 0 = 0` fits `usize` and the remaining
capacity) — the call does not succeed: it panics with a subtraction
underflow (computing `rem_len = 0 - 1`), after having already copied the
slice into the uncommitted region. -/
theorem claim_C1_counterexample :
    (([5] : List Nat).length * 0 < USIZE) ∧
    (([5] : List Nat).length * 0 ≤
      (⟨⟨[none], 0⟩, 0, 1⟩ : FixedCapVec.FCVec Nat).max_len -
        (⟨⟨[none], 0⟩, 0, 1⟩ : FCVec Nat).buffer.len) ∧
    (⟨⟨[none], 0⟩, 0, 1⟩ : FCVec Nat).extend_with_repeat [5] 0 =
      .error (.subOverflow, ⟨⟨[some 5], 0⟩, 0, 1⟩, []) := by
  refine ⟨by norm_num [USIZE], by decide, ?_⟩
  exact (extend_with_repeat_n0 (⟨⟨[none], 0⟩, 0, 1⟩ : FCVec Nat) [5]
    (by decide) (by simp)).1 (by decide)

/-- **C1, witness**: the amended theorem applied at a cursor with four free
slots, `slice = [7, 8]`, `n = 2`. -/
theorem claim_C1_witness :
    (([7, 8] : List Nat).length * 2 < USIZE) ∧
    ((⟨⟨[none, none, none, none], 0⟩, 0, 4⟩ : FCVec Nat).buffer.len ≤
      (⟨⟨[none, none, none, none], 0⟩, 0, 4⟩ : FCVec Nat).max_len) ∧
    ((⟨⟨[none, none, none, none], 0⟩, 0, 4⟩ : FCVec Nat).max_len ≤
      (⟨⟨[none, none, none, none], 0⟩, 0, 4⟩ : FCVec Nat).buffer.store.length) ∧
    (([7, 8] : List Nat).length * 2 ≤
      (⟨⟨[none, none, none, none], 0⟩, 0, 4⟩ : FCVec Nat).max_len -
        (⟨⟨[none, none, none, none], 0⟩, 0, 4⟩ : FCVec Nat).buffer.len) ∧
    (1 ≤ 2 ∨ ([7, 8] : List Nat) = []) ∧
    (∃ v' log,
      (⟨⟨[none, none, none, none], 0⟩, 0, 4⟩ : FCVec Nat).extend_with_repeat
        [7, 8] 2 = .ok (v', log) ∧
      v'.buffer.len = (⟨⟨[none, none, none, none], 0⟩, 0, 4⟩ :
        FCVec Nat).buffer.len + ([7, 8] : List Nat).length * 2 ∧
      segment v'.buffer.store
        (⟨⟨[none, none, none, none], 0⟩, 0, 4⟩ : FCVec Nat).buffer.len
        (([7, 8] : List Nat).length * 2) = (repeatN [7, 8] 2).map some ∧
      v'.buffer.store.take
        (⟨⟨[none, none, none, none], 0⟩, 0, 4⟩ : FCVec Nat).buffer.len =
        (⟨⟨[none, none, none, none], 0⟩, 0, 4⟩ :
          FCVec Nat).buffer.store.take
          (⟨⟨[none, none, none, none], 0⟩, 0, 4⟩ : FCVec Nat).buffer.len ∧
      v'.buffer.store.drop
        ((⟨⟨[none, none, none, none], 0⟩, 0, 4⟩ : FCVec Nat).buffer.len +
          ([7, 8] : List Nat).length * 2) =
        (⟨⟨[none, none, none, none], 0⟩, 0, 4⟩ :
          FCVec Nat).buffer.store.drop
          ((⟨⟨[none, none, none, none], 0⟩, 0, 4⟩ : FCVec Nat).buffer.len +
            ([7, 8] : List Nat).length * 2) ∧
      v'.start = (⟨⟨[none, none, none, none], 0⟩, 0, 4⟩ : FCVec Nat).start ∧
      v'.max_len = (⟨⟨[none, none, none, none], 0⟩, 0, 4⟩ : FCVec Nat).max_len) :=
  ⟨by norm_num [USIZE], by decide, by decide, by decide, Or.inl (by decide),
    claim_C1_extend_with_repeat_appends
      (⟨⟨[none, none, none, none], 0⟩, 0, 4⟩ : FCVec Nat) [7, 8] 2
      (by norm_num [USIZE]) (by decide) (by decide) (by decide)
      (Or.inl (by decide))⟩

/-- **C2** (code bug): the spec requires `extend_with_repeat(slice, 0)` to
be a no-op, but at the concrete failing input `slice = [3]`, `n = 0`
(remaining capacity 2, so every precondition holds) the code first copies
the slice into the uncommitted region without any capacity justification
and then panics computing `rem_len = cap_needed - copy_size = 0 - 1`
(debug-mode subtraction overflow; in release mode the subtraction wraps and
the remainder copy becomes a wild multi-exabyte copy).  The empty-slice
half of the claim does hold (see the `s = []` case of
`claim_C1_extend_with_repeat_appends`). -/
theorem claim_C2_zero_repetitions_panics :
    (⟨⟨[none, none], 0⟩, 0, 2⟩ : FCVec Nat).extend_with_repeat [3] 0 =
      .error (.subOverflow, ⟨⟨[some 3, none], 0⟩, 0, 2⟩, []) :=
  (extend_with_repeat_n0 (⟨⟨[none, none], 0⟩, 0, 2⟩ : FCVec Nat) [3]
    (by decide) (by simp)).1 (by decide)

/-- **C3** (amended: restricted to `distance ≤ count`; the degenerate case
`distance > count` panics, see `claim_C3_counterexample`):
`decode_rle_lib_optim` appends exactly `count` elements and afterwards
every appended element equals the element `distance` positions before it,
including the self-referential case `distance < count`. -/
theorem claim_C3_decode_back_reference {T : Type} (buffer : RustVec T)
    (distance count : Nat) (hwf : buffer.WF) (hd1 : 0 < distance)
    (hd2 : distance ≤ buffer.len) (hdc : distance ≤ count)
    (hcU : count < USIZE) :
    ∃ buf',
      decode_rle_lib_optim buffer distance count = .ok buf' ∧
      buf'.len = buffer.len + count ∧
      ∀ i, i < count →
        buf'.store[buffer.len + i]? = buf'.store[buffer.len + i - distance]? :=
  decode_rle_lib_optim_ok buffer distance count hwf hd1 hd2 hdc hcU

/-- **C3, counterexample**: in the degenerate case `distance ≥ count`
(here `distance = 2`, `count = 1` on a well-formed buffer of length 3) the
claim demands a successful single bulk copy, but `full_repeats = 1 / 2 = 0`
sends `extend_with_repeat` into its `n = 0` failure: the unchecked initial
copy of the 2-element tail lands outside the 4-slot allocation (a heap
overflow in release mode). -/
theorem claim_C3_counterexample :
    decode_rle_lib_optim (⟨[some 1, some 2, some 3], 3⟩ : RustVec Nat) 2 1 =
      .error .oobWrite := by
  rfl

/-- **C3, witness**: the amended theorem applied to the buffer `[9, 8]`
with `distance = 1`, `count = 2`. -/
theorem claim_C3_witness :
    (⟨[some 9, some 8], 2⟩ : RustVec Nat).WF ∧ 0 < 1 ∧ (1 ≤ 2) ∧ (1 ≤ 2) ∧
    2 < USIZE ∧
    (∃ buf',
      decode_rle_lib_optim (⟨[some 9, some 8], 2⟩ : RustVec Nat) 1 2 =
        .ok buf' ∧
      buf'.len = (⟨[some 9, some 8], 2⟩ : RustVec Nat).len + 2 ∧
      ∀ i, i < 2 →
        buf'.store[(⟨[some 9, some 8], 2⟩ : RustVec Nat).len + i]? =
          buf'.store[(⟨[some 9, some 8], 2⟩ : RustVec Nat).len + i - 1]?) :=
  ⟨by decide, by decide, by decide, by decide, by norm_num [USIZE],
    claim_C3_decode_back_reference (⟨[some 9, some 8], 2⟩ : RustVec Nat) 1 2
      (by decide) (by decide) (by decide) (by decide) (by norm_num [USIZE])⟩

/-- **C4** (amended: besides out-of-memory, the split also fails — by its
own `assert!(self.capacity() > 0)` — when the resulting allocation is
empty, see `claim_C4_counterexample`): for every well-formed vector whose
allocation or requested capacity is non-zero, `with_fixed_capacity`
succeeds and returns the read view `Buffer[0 .. len]` together with a
cursor with `start = len`, `max_len = len + additional_capacity` over a
backing store of at least `max_len` slots, so no later reallocation is
needed. -/
theorem claim_C4_with_fixed_capacity {T : Type} (v : RustVec T)
    (capacity : Nat) (hwf : v.WF)
    (hpos : 0 < v.store.length ∨ 0 < capacity) :
    ∃ sl store1,
      v.with_fixed_capacity capacity =
        .ok (sl, ⟨⟨store1, v.len⟩, v.len, v.len + capacity⟩) ∧
      sl.map some = v.store.take v.len ∧
      sl.length = v.len ∧
      store1.take v.len = v.store.take v.len ∧
      v.len + capacity ≤ store1.length :=
  with_fixed_capacity_ok v capacity hwf hpos

/-- **C4, counterexample**: splitting an empty, unallocated vector with
`additional_capacity = 0` does not succeed — the `assert!(capacity() > 0)`
fires (the library's own `test_empty_cap_panics` documents this panic), so
out-of-memory is not the only failure mode. -/
theorem claim_C4_counterexample :
    (⟨[], 0⟩ : RustVec Nat).with_fixed_capacity 0 = .error .assertCap := by
  rfl

/-- **C4, witness**: the amended theorem applied to the vector `[1, 2]`
with three extra slots requested. -/
theorem claim_C4_witness :
    (⟨[some 1, some 2], 2⟩ : RustVec Nat).WF ∧
    (0 < ([some 1, some 2] : List (Option Nat)).length ∨ 0 < 3) ∧
    (∃ sl store1,
      (⟨[some 1, some 2], 2⟩ : RustVec Nat).with_fixed_capacity 3 =
        .ok (sl, ⟨⟨store1, 2⟩, 2, 2 + 3⟩) ∧
      sl.map some = ([some 1, some 2] : List (Option Nat)).take 2 ∧
      sl.length = 2 ∧
      store1.take 2 = ([some 1, some 2] : List (Option Nat)).take 2 ∧
      2 + 3 ≤ store1.length) :=
  ⟨by decide, Or.inr (by decide),
    claim_C4_with_fixed_capacity (⟨[some 1, some 2], 2⟩ : RustVec Nat) 3
      (by decide) (Or.inr (by decide))⟩

/-- **C5** (amended: `push`, `extend_from_slice` and `extend_with_repeat`
do fail before mutating any state when their capacity or overflow check
fires; the iterator-based `Extend::extend`, however, is *not* atomic — it
pushes items one by one and fails only on the first item beyond capacity,
leaving the earlier items appended, see `claim_C5_counterexample`). -/
theorem claim_C5_fail_before_mutation {T : Type} (v : FCVec T) :
    (∀ x : T, v.buffer.len = v.max_len →
      v.push x = .error (.assertCap, v)) ∧
    (∀ other : List T, v.buffer.len ≤ v.max_len →
      v.max_len - v.buffer.len < other.length →
      v.extend_from_slice other = .error (.assertCap, v)) ∧
    (∀ (s : List T) (n : Nat), s.length * n < USIZE →
      v.buffer.len ≤ v.max_len → v.max_len - v.buffer.len < s.length * n →
      v.extend_with_repeat s n = .error (.assertCap, v, [])) ∧
    (∀ (s : List T) (n : Nat), USIZE ≤ s.length * n →
      v.extend_with_repeat s n = .error (.mulOverflow, v, [])) :=
  ⟨fun x h => push_fail x h,
   fun other h2 hbig => extend_from_slice_fail other h2 hbig,
   fun _ _ hU h2 hbig => extend_with_repeat_capfail hU h2 hbig,
   fun s n hge => (extend_with_repeat_overflow_char v s n).1 hge⟩

/-- **C5, counterexample**: `Extend::extend` with two items on a cursor
with one free slot fails on the second item, but the first item has
already been pushed: the carried state has length 1, not the original 0 —
a partial write, contradicting the claim for the iterator-based extend. -/
theorem claim_C5_counterexample :
    (⟨⟨[none], 0⟩, 0, 1⟩ : FCVec Nat).extendIter [5, 6] =
      .error (.assertCap, ⟨⟨[some 5], 1⟩, 0, 1⟩) ∧
    (⟨⟨[some 5], 1⟩, 0, 1⟩ : FCVec Nat).buffer.len ≠
      (⟨⟨[none], 0⟩, 0, 1⟩ : FCVec Nat).buffer.len :=
  ⟨rfl, by decide⟩

/-- **C5, witness**: the amended theorem applied to a full cursor and a
`push`. -/
theorem claim_C5_witness :
    ((⟨⟨[some 4], 1⟩, 0, 1⟩ : FCVec Nat).buffer.len =
      (⟨⟨[some 4], 1⟩, 0, 1⟩ : FCVec Nat).max_len) ∧
    (⟨⟨[some 4], 1⟩, 0, 1⟩ : FCVec Nat).push 9 =
      .error (.assertCap, ⟨⟨[some 4], 1⟩, 0, 1⟩) :=
  ⟨by decide,
    (claim_C5_fail_before_mutation (⟨⟨[some 4], 1⟩, 0, 1⟩ : FCVec Nat)).1 9
      (by decide)⟩

/-- **C6** (amended: the read region `Buffer[0 .. origin_len]` is never
mutated through the view, the length never decreases and the cursor bounds
are constant, over every operation sequence; and no *appending* operation
rewrites already-appended elements — but `DerefMut`/`AsMut` hand out the
write region `[origin_len .. len)` as a mutable slice, so already-appended
elements *can* be rewritten through them, see
`claim_C6_counterexample`). -/
theorem claim_C6_read_region_immutable {T : Type} (v : FCVec T)
    (ops : List (Op T)) (hInv : Inv v) :
    ((outState (runOps v ops)).buffer.store.take v.start =
        v.buffer.store.take v.start ∧
      v.buffer.len ≤ (outState (runOps v ops)).buffer.len ∧
      (outState (runOps v ops)).start = v.start ∧
      (outState (runOps v ops)).max_len = v.max_len) ∧
    ((∀ i x, Op.asMutWrite i x ∉ ops) →
      (outState (runOps v ops)).buffer.store.take v.buffer.len =
        v.buffer.store.take v.buffer.len) := by
  constructor
  · obtain ⟨_, h2, h3, h4, _, h6⟩ :=
      runOps_frame ops v v.start hInv hInv.1 (Or.inl (Nat.le_refl _))
    exact ⟨h6, h2, h3, h4⟩
  · intro hno
    obtain ⟨_, _, _, _, _, h6⟩ :=
      runOps_frame ops v v.buffer.len hInv (Nat.le_refl _) (Or.inr hno)
    exact h6

/-- **C6, counterexample**: pushing `5` appends it at index 2; a subsequent
write through `AsMut`/`DerefMut` at offset 0 of the write region rewrites
that already-appended element to `7` — the sequence goes only through the
view's public interface, yet an appended element was rewritten. -/
theorem claim_C6_counterexample :
    step (⟨⟨[some 1, some 2, none, none], 2⟩, 2, 4⟩ : FCVec Nat) (.push 5) =
      .ok ⟨⟨[some 1, some 2, some 5, none], 3⟩, 2, 4⟩ ∧
    runOps (⟨⟨[some 1, some 2, none, none], 2⟩, 2, 4⟩ : FCVec Nat)
      [.push 5, .asMutWrite 0 7] =
      .ok ⟨⟨[some 1, some 2, some 7, none], 3⟩, 2, 4⟩ ∧
    ([some 1, some 2, some 5, none] : List (Option Nat))[2]? ≠
      ([some 1, some 2, some 7, none] : List (Option Nat))[2]? :=
  ⟨rfl, rfl, by decide⟩

/-- **C6, witness**: the amended theorem applied to a live cursor and a
single push. -/
theorem claim_C6_witness :
    Inv (⟨⟨[some 3, none], 1⟩, 1, 2⟩ : FCVec Nat) ∧
    (((outState (runOps (⟨⟨[some 3, none], 1⟩, 1, 2⟩ : FCVec Nat)
          [.push 8])).buffer.store.take 1 =
        ([some 3, none] : List (Option Nat)).take 1 ∧
      1 ≤ (outState (runOps (⟨⟨[some 3, none], 1⟩, 1, 2⟩ : FCVec Nat)
          [.push 8])).buffer.len ∧
      (outState (runOps (⟨⟨[some 3, none], 1⟩, 1, 2⟩ : FCVec Nat)
          [.push 8])).start = 1 ∧
      (outState (runOps (⟨⟨[some 3, none], 1⟩, 1, 2⟩ : FCVec Nat)
          [.push 8])).max_len = 2) ∧
    ((∀ i x, Op.asMutWrite i x ∉ ([.push 8] : List (Op Nat))) →
      (outState (runOps (⟨⟨[some 3, none], 1⟩, 1, 2⟩ : FCVec Nat)
          [.push 8])).buffer.store.take 1 =
        ([some 3, none] : List (Option Nat)).take 1)) :=
  ⟨⟨by decide, by decide, by decide⟩,
    claim_C6_read_region_immutable (⟨⟨[some 3, none], 1⟩, 1, 2⟩ : FCVec Nat)
      [.push 8] ⟨by decide, by decide, by decide⟩⟩

/-- **C7**: for every slice and count accepted by the precondition checks
of `extend_with_repeat`, every self-referential bulk copy it performs
(recorded in the ghost log: the doubling copies and the final remainder
copy) reads only cells at or after the start of the run that were written
before the copy (`src + cnt ≤ fillEnd`), and writes at or past the end of
its source range (`src + cnt ≤ dst`), so source and destination never
overlap; moreover no run ever fails with the overlap or
uninitialized-read conditions of the copy primitive. -/
theorem claim_C7_copies_never_overlap {T : Type} (v : FCVec T) (s : List T)
    (n : Nat)
    (h1 : s.length * n < USIZE)
    (h2 : v.buffer.len ≤ v.max_len)
    (h3 : v.max_len ≤ v.buffer.store.length)
    (h4 : s.length * n ≤ v.max_len - v.buffer.len) :
    (∀ v' log, v.extend_with_repeat s n = .ok (v', log) →
      ∀ ev ∈ log, v.buffer.len ≤ ev.src ∧ ev.src + ev.cnt ≤ ev.fillEnd ∧
        ev.fillEnd = ev.dst ∧ ev.src + ev.cnt ≤ ev.dst) ∧
    (∀ e v' log, v.extend_with_repeat s n = .error (e, v', log) →
      log = [] ∧ e ≠ .overlap ∧ e ≠ .uninitRead ∧ e ≠ .oobRead) := by
  by_cases h5 : 1 ≤ n ∨ s = []
  · obtain ⟨log0, hrun, hprop⟩ := extend_with_repeat_ok v s n h1 h2 h3 h4 h5
    constructor
    · intro v' log h ev hev
      rw [hrun] at h
      simp at h
      obtain ⟨_, hlog⟩ := h
      subst hlog
      obtain ⟨ha, hb, hc⟩ := hprop ev hev
      exact ⟨by omega, by omega, hb, hc⟩
    · intro e v' log h
      rw [hrun] at h
      simp at h
  · rw [not_or] at h5
    obtain ⟨h5a, h5b⟩ := h5
    have hn : n = 0 := by omega
    subst hn
    obtain ⟨hb1, hb2⟩ := extend_with_repeat_n0 v s h2 h5b
    constructor
    · intro v' log h
      by_cases hbound : v.buffer.len + s.length ≤ v.buffer.store.length
      · rw [hb1 hbound] at h
        simp at h
      · rw [hb2 (by omega)] at h
        simp at h
    · intro e v' log h
      by_cases hbound : v.buffer.len + s.length ≤ v.buffer.store.length
      · rw [hb1 hbound] at h
        simp at h
        obtain ⟨he, _, hlog⟩ := h
        subst hlog
        simp [← he]
      · rw [hb2 (by omega)] at h
        simp at h
        obtain ⟨he, _, hlog⟩ := h
        subst hlog
        simp [← he]

/-- **C7, witness**: the theorem applied at `slice = [4]`, `n = 2` on a
cursor with two free slots. -/
theorem claim_C7_witness :
    (([4] : List Nat).length * 2 < USIZE) ∧
    ((⟨⟨[none, none], 0⟩, 0, 2⟩ : FCVec Nat).buffer.len ≤
      (⟨⟨[none, none], 0⟩, 0, 2⟩ : FCVec Nat).max_len) ∧
    ((⟨⟨[none, none], 0⟩, 0, 2⟩ : FCVec Nat).max_len ≤
      (⟨⟨[none, none], 0⟩, 0, 2⟩ : FCVec Nat).buffer.store.length) ∧
    (([4] : List Nat).length * 2 ≤
      (⟨⟨[none, none], 0⟩, 0, 2⟩ : FCVec Nat).max_len -
        (⟨⟨[none, none], 0⟩, 0, 2⟩ : FCVec Nat).buffer.len) ∧
    ((∀ v' log, (⟨⟨[none, none], 0⟩, 0, 2⟩ : FCVec Nat).extend_with_repeat
        [4] 2 = .ok (v', log) →
      ∀ ev ∈ log, (⟨⟨[none, none], 0⟩, 0, 2⟩ : FCVec Nat).buffer.len ≤ ev.src ∧
        ev.src + ev.cnt ≤ ev.fillEnd ∧ ev.fillEnd = ev.dst ∧
        ev.src + ev.cnt ≤ ev.dst) ∧
    (∀ e v' log, (⟨⟨[none, none], 0⟩, 0, 2⟩ : FCVec Nat).extend_with_repeat
        [4] 2 = .error (e, v', log) →
      log = [] ∧ e ≠ .overlap ∧ e ≠ .uninitRead ∧ e ≠ .oobRead)) :=
  ⟨by norm_num [USIZE], by decide, by decide, by decide,
    claim_C7_copies_never_overlap (⟨⟨[none, none], 0⟩, 0, 2⟩ : FCVec Nat)
      [4] 2 (by norm_num [USIZE]) (by decide) (by decide) (by decide)⟩

/-- **C8**: the cursor invariant `start ≤ Buffer.length ≤ max_len` holds
right after `with_fixed_capacity` (together with the allocation bound) and
is preserved by every sequence of cursor operations, so `additional_cap`'s
subtraction `max_len - Buffer.length` never underflows. -/
theorem claim_C8_cursor_invariant {T : Type} :
    (∀ (v : RustVec T) (cap : Nat) (sl : List T) (fc : FCVec T),
      v.with_fixed_capacity cap = .ok (sl, fc) →
      CursorInv fc ∧ fc.max_len ≤ fc.buffer.store.length) ∧
    (∀ (v : FCVec T) (ops : List (Op T)), Inv v →
      CursorInv (outState (runOps v ops)) ∧ Inv (outState (runOps v ops))) ∧
    (∀ v : FCVec T, CursorInv v →
      v.additional_cap = .ok (v.max_len - v.buffer.len)) := by
  refine ⟨?_, ?_, ?_⟩
  · intro v cap sl fc h
    obtain ⟨h1, h2, h3, h4⟩ := with_fixed_capacity_cursor h
    exact ⟨⟨by omega, by omega⟩, h4⟩
  · intro v ops hInv
    obtain ⟨hq1, _, _, _, _, _⟩ :=
      runOps_frame ops v v.start hInv hInv.1 (Or.inl (Nat.le_refl _))
    exact ⟨⟨hq1.1, hq1.2.1⟩, hq1⟩
  · intro v hci
    unfold FCVec.additional_cap checkedSub
    rw [if_pos hci.2]

/-- **C8, witness**: splitting `[1]` with one extra slot establishes the
invariant. -/
theorem claim_C8_witness :
    ((⟨[some 1], 1⟩ : RustVec Nat).with_fixed_capacity 1 =
      .ok ([1], ⟨⟨[some 1, none], 1⟩, 1, 2⟩)) ∧
    (CursorInv (⟨⟨[some 1, none], 1⟩, 1, 2⟩ : FCVec Nat) ∧
      (⟨⟨[some 1, none], 1⟩, 1, 2⟩ : FCVec Nat).max_len ≤
        (⟨⟨[some 1, none], 1⟩, 1, 2⟩ : FCVec Nat).buffer.store.length) :=
  ⟨by rfl,
    (claim_C8_cursor_invariant (T := Nat)).1 (⟨[some 1], 1⟩ : RustVec Nat) 1
      [1] (⟨⟨[some 1, none], 1⟩, 1, 2⟩ : FCVec Nat) (by rfl)⟩

/-- **C9**: `extend_from_slice source` with `source.len()` at most the
remaining capacity copies `source` verbatim into
`Buffer[len .. len + source.len()]`, advances the length by
`source.len()` and touches nothing else; with `source.len()` beyond the
remaining capacity it fails with the capacity assert, unchanged. -/
theorem claim_C9_extend_from_slice {T : Type} (v : FCVec T) (other : List T)
    (h2 : v.buffer.len ≤ v.max_len) (h3 : v.max_len ≤ v.buffer.store.length) :
    (other.length ≤ v.max_len - v.buffer.len →
      ∃ v', v.extend_from_slice other = .ok v' ∧
        v'.buffer.len = v.buffer.len + other.length ∧
        segment v'.buffer.store v.buffer.len other.length = other.map some ∧
        v'.buffer.store.take v.buffer.len = v.buffer.store.take v.buffer.len ∧
        v'.buffer.store.drop (v.buffer.len + other.length) =
          v.buffer.store.drop (v.buffer.len + other.length) ∧
        v'.start = v.start ∧ v'.max_len = v.max_len) ∧
    (v.max_len - v.buffer.len < other.length →
      v.extend_from_slice other = .error (.assertCap, v)) := by
  constructor
  · intro hfit
    refine ⟨_, extend_from_slice_ok_char other hfit h2 h3, rfl, ?_, ?_, ?_,
      rfl, rfl⟩
    · show segment (writeAt v.buffer.store v.buffer.len other) v.buffer.len
        other.length = other.map some
      exact segment_writeAt_self (by omega)
    · show (writeAt v.buffer.store v.buffer.len other).take v.buffer.len =
        v.buffer.store.take v.buffer.len
      exact take_writeAt (Nat.le_refl _) (by omega)
    · show (writeAt v.buffer.store v.buffer.len other).drop
        (v.buffer.len + other.length) =
        v.buffer.store.drop (v.buffer.len + other.length)
      exact drop_writeAt (Nat.le_refl _) (by omega)
  · intro hbig
    exact extend_from_slice_fail other h2 hbig

/-- **C9, witness**: the theorem applied at `source = [1, 2]` on a cursor
with two free slots. -/
theorem claim_C9_witness :
    ((⟨⟨[none, none], 0⟩, 0, 2⟩ : FCVec Nat).buffer.len ≤
      (⟨⟨[none, none], 0⟩, 0, 2⟩ : FCVec Nat).max_len) ∧
    ((⟨⟨[none, none], 0⟩, 0, 2⟩ : FCVec Nat).max_len ≤
      (⟨⟨[none, none], 0⟩, 0, 2⟩ : FCVec Nat).buffer.store.length) ∧
    ((([1, 2] : List Nat)).length ≤
        (⟨⟨[none, none], 0⟩, 0, 2⟩ : FCVec Nat).max_len -
          (⟨⟨[none, none], 0⟩, 0, 2⟩ : FCVec Nat).buffer.len →
      ∃ v', (⟨⟨[none, none], 0⟩, 0, 2⟩ : FCVec Nat).extend_from_slice [1, 2] =
          .ok v' ∧
        v'.buffer.len = (⟨⟨[none, none], 0⟩, 0, 2⟩ : FCVec Nat).buffer.len +
          ([1, 2] : List Nat).length ∧
        segment v'.buffer.store
          (⟨⟨[none, none], 0⟩, 0, 2⟩ : FCVec Nat).buffer.len
          ([1, 2] : List Nat).length = ([1, 2] : List Nat).map some ∧
        v'.buffer.store.take (⟨⟨[none, none], 0⟩, 0, 2⟩ :
          FCVec Nat).buffer.len =
          (⟨⟨[none, none], 0⟩, 0, 2⟩ : FCVec Nat).buffer.store.take
            (⟨⟨[none, none], 0⟩, 0, 2⟩ : FCVec Nat).buffer.len ∧
        v'.buffer.store.drop ((⟨⟨[none, none], 0⟩, 0, 2⟩ :
            FCVec Nat).buffer.len + ([1, 2] : List Nat).length) =
          (⟨⟨[none, none], 0⟩, 0, 2⟩ : FCVec Nat).buffer.store.drop
            ((⟨⟨[none, none], 0⟩, 0, 2⟩ : FCVec Nat).buffer.len +
              ([1, 2] : List Nat).length) ∧
        v'.start = (⟨⟨[none, none], 0⟩, 0, 2⟩ : FCVec Nat).start ∧
        v'.max_len = (⟨⟨[none, none], 0⟩, 0, 2⟩ : FCVec Nat).max_len) :=
  ⟨by decide, by decide,
    (claim_C9_extend_from_slice (⟨⟨[none, none], 0⟩, 0, 2⟩ : FCVec Nat)
      [1, 2] (by decide) (by decide)).1⟩

/-- **C10**: `extend_with_repeat` raises the "capacity overflow" panic
exactly when `slice.len() * n` exceeds `usize` — it is the first check,
performed before the capacity check and before any memory operation, and
the carried state is the untouched cursor; whenever the product is
representable, that panic is never raised by any path. -/
theorem claim_C10_overflow_check {T : Type} (v : FCVec T) (s : List T)
    (n : Nat) :
    (USIZE ≤ s.length * n →
      v.extend_with_repeat s n = .error (.mulOverflow, v, [])) ∧
    (s.length * n < USIZE →
      ∀ e v' log, v.extend_with_repeat s n = .error (e, v', log) →
        e ≠ .mulOverflow) :=
  extend_with_repeat_overflow_char v s n

/-- **C10, witness**: `4 * 2^62 = 2^64` overflows `usize`, and the call
fails with the overflow condition leaving the cursor untouched. -/
theorem claim_C10_witness :
    (USIZE ≤ ([1, 1, 1, 1] : List Nat).length * 4611686018427387904) ∧
    (⟨⟨[], 0⟩, 0, 0⟩ : FCVec Nat).extend_with_repeat [1, 1, 1, 1]
        4611686018427387904 =
      .error (.mulOverflow, ⟨⟨[], 0⟩, 0, 0⟩, []) :=
  ⟨by norm_num [USIZE],
    (claim_C10_overflow_check (⟨⟨[], 0⟩, 0, 0⟩ : FCVec Nat) [1, 1, 1, 1]
      4611686018427387904).1 (by norm_num [USIZE])⟩

end Claims

end FixedCapVec
